import Mathlib

/-!
# Worker-pool dispatchers of the mass e-mail sorting project

A shallow embedding of the three task-distribution back ends
(`direct_fork.c`, `fifo_processes.c`, `mq_processes.c`).  The dispatchers only
talk to the outside world through system calls, so each one is embedded as a
function from the answers of those calls (directory entries, `fork` results,
`select` results, records read) to the trace of calls it makes.
-/

namespace Lp25

/-! ## Directory entries -/

/-- The value of `DT_DIR` in `<dirent.h>`. -/
def DT_DIR : Nat := 4

/-- The two fields of `struct dirent` the dispatchers look at. -/
structure dirent where
  d_name : String
  d_type : Nat
deriving DecidableEq, Repr

/-- The test `strcmp(entry->d_name, ".") == 0 || strcmp(entry->d_name, "..") == 0`. -/
def isDotEntry (entry : dirent) : Bool :=
  entry.d_name == "." || entry.d_name == ".."

/-! ## `direct_fork.c` : one process per task -/

/-- The system calls `direct_fork_directories` makes in the parent process.
`rp` is the value of `running_processes` when the call is made;
`pid_positive` tells whether `fork` returned a positive pid (`false`: it
returned a negative one, the call failed). -/
inductive ForkEvent where
  | wait (rp : Int)
  | fork (d_name : String) (rp : Int) (pid_positive : Bool)
deriving DecidableEq, Repr

/-- Value of `running_processes` when the call is made. -/
def ForkEvent.before : ForkEvent → Int
  | .wait rp => rp
  | .fork _ rp _ => rp

/-- Value of `running_processes` once the statement that follows the call
(`running_processes--`, or `running_processes++` under `pid > 0`) has run. -/
def ForkEvent.after : ForkEvent → Int
  | .wait rp => rp - 1
  | .fork _ rp ok => if ok then rp + 1 else rp

/-- Whether the event is a call to `fork`. -/
def ForkEvent.isFork : ForkEvent → Bool
  | .fork _ _ _ => true
  | .wait _ => false

/-- Whether the event is a call to `wait`. -/
def ForkEvent.isWait : ForkEvent → Bool
  | .wait _ => true
  | .fork _ _ _ => false

/-- Whether the event is a call to `fork` that returned a positive pid. -/
def ForkEvent.isForkOk : ForkEvent → Bool
  | .fork _ _ ok => ok
  | .wait _ => false

/-- Parent-side state of `direct_fork_directories`. -/
structure DirectForkState where
  running_processes : Int
  fork_calls : Nat
  trace : List ForkEvent
deriving DecidableEq, Repr

/-- One iteration of a `wait(NULL); running_processes--;` loop body. -/
def waitOne (s : DirectForkState) : DirectForkState :=
  { s with running_processes := s.running_processes - 1
           trace := s.trace ++ [ForkEvent.wait s.running_processes] }

/-- The loop `while (running_processes >= nb_proc) { wait(NULL); running_processes--; }`,
unrolled `fuel` times. -/
def awaitCapacityLoop (nb_proc : Nat) : Nat → DirectForkState → DirectForkState
  | 0, s => s
  | fuel + 1, s =>
    if s.running_processes ≥ (nb_proc : Int) then awaitCapacityLoop nb_proc fuel (waitOne s)
    else s

/-- The capacity loop run with as many unrollings as it can need. -/
def awaitCapacity (nb_proc : Nat) (s : DirectForkState) : DirectForkState :=
  awaitCapacityLoop nb_proc (s.running_processes - nb_proc + 1).toNat s

/-- The loop `while (running_processes > 0) { wait(NULL); running_processes--; }`,
unrolled `fuel` times. -/
def drainLoop : Nat → DirectForkState → DirectForkState
  | 0, s => s
  | fuel + 1, s =>
    if s.running_processes > 0 then drainLoop fuel (waitOne s) else s

/-- The final wait loop run with as many unrollings as it can need. -/
def drainChildren (s : DirectForkState) : DirectForkState :=
  drainLoop s.running_processes.toNat s

/-- The call `fork()` and the `if (pid == 0) ... else if (pid > 0) running_processes++;`
that follows, seen from the parent.  `forkOk k` tells whether the `k`-th call of
`fork` returns a positive pid; when it does not, neither branch is taken. -/
def forkTask (forkOk : Nat → Bool) (s : DirectForkState) (entry : dirent) : DirectForkState :=
  let ok := forkOk s.fork_calls
  { running_processes := if ok then s.running_processes + 1 else s.running_processes
    fork_calls := s.fork_calls + 1
    trace := s.trace ++ [ForkEvent.fork entry.d_name s.running_processes ok] }

/-- Body of the `readdir` loop of `direct_fork_directories`. -/
def directForkEntry (nb_proc : Nat) (forkOk : Nat → Bool) (s : DirectForkState)
    (entry : dirent) : DirectForkState :=
  if isDotEntry entry then s
  else forkTask forkOk (awaitCapacity nb_proc s) entry

/-- Function `direct_fork_directories`, for non-null paths and a data source
that `opendir` opens; `entries` is what `readdir` returns until `NULL`. -/
def direct_fork_directories (nb_proc : Nat) (entries : List dirent) (forkOk : Nat → Bool) :
    DirectForkState :=
  if nb_proc = 0 then { running_processes := 0, fork_calls := 0, trace := [] }
  else
    drainChildren
      (entries.foldl (directForkEntry nb_proc forkOk)
        { running_processes := 0, fork_calls := 0, trace := [] })

/-! ## `fifo_processes.c` : persistent workers behind pairs of FIFOs -/

/-- Type `task_t`, as far as the pool looks into it: the callback (a code
address, `none` for `NULL`) and the bytes of the arguments. -/
structure task_t where
  task_callback : Option Nat
  argv : String
deriving DecidableEq, Repr

/-- What a worker does, in order: calls of `task.task_callback(&task)` and
records written to its notify FIFO (as bytes). -/
inductive WorkerEvent where
  | invoke (task : task_t)
  | write (record : List Nat)
deriving DecidableEq, Repr

/-- How the run of a worker loop over the records available ends: `exited` when
it left the loop through `break`, `waiting` when it sits in `read` for a next
record. -/
inductive WorkerStatus where
  | exited
  | waiting
deriving DecidableEq, Repr

/-- The array `char notification[1024] = "Task completed";` : the characters of
the string, then zero bytes up to the size of the array. -/
def taskCompletedRecord : List Nat :=
  "Task completed".data.map Char.toNat ++ List.replicate (1024 - "Task completed".length) 0

/-- The C string held by a byte record: the bytes before the first zero. -/
def cString (record : List Nat) : List Nat :=
  record.takeWhile (fun b => b != 0)

/-- The `while (1)` loop of the child in `make_processes`, over the records
that `read(in_fifo, &task, sizeof(task_t))` fills `task` with, one per call. -/
def workerLoop : List task_t → List WorkerEvent × WorkerStatus
  | [] => ([], WorkerStatus.waiting)
  | task :: later =>
    match task.task_callback with
    | none => ([], WorkerStatus.exited)
    | some _ =>
      (WorkerEvent.invoke task :: WorkerEvent.write taskCompletedRecord :: (workerLoop later).1,
        (workerLoop later).2)

/-- The tasks `shutdown_processes` writes, one per command FIFO `i`; only the
callback of the record is set (to `NULL`), `garbage i` stands for the rest. -/
def shutdown_processes (processes_count : Nat) (garbage : Nat → String) : List (Nat × task_t) :=
  (List.range processes_count).map fun i => (i, { task_callback := none, argv := garbage i })

/-- The calls the dispatcher of the FIFO back end makes: `select` (numbered),
`read` on `notify_fifos[worker]` with the C string of the record it got, and
`send_task` / `send_task_file` with its name argument and `command_fifos[worker]`. -/
inductive FifoEvent where
  | select (call : Nat)
  | read (worker : Nat) (notification : String)
  | send (worker : Nat) (name : String)
deriving DecidableEq, Repr

/-- Answers of the system to the dispatcher: `select k i` tells whether
`FD_ISSET(notify_fifos[i], &read_fds)` holds after the `k`-th call of `select`,
and `notification k` is the C string of the `k`-th record read. -/
structure FifoEnv where
  select : Nat → Nat → Bool
  notification : Nat → String

/-- Dispatcher state of `fifo_process_directory` / `fifo_process_files`. -/
structure FifoState where
  completed_tasks : Nat
  select_calls : Nat
  read_calls : Nat
  trace : List FifoEvent
deriving DecidableEq, Repr

/-- State at the start of the dispatch loop. -/
def FifoState.init : FifoState :=
  { completed_tasks := 0, select_calls := 0, read_calls := 0, trace := [] }

/-- The `if (completed_tasks < nb_proc) ... else ...` statement both FIFO
dispatch loops run for the current item `name`: a send to the next fresh worker,
or `select`, then the scan `for (i = 0; i < nb_proc; i++)` that reads the record
of the first readable FIFO and sends the item when the record is
`"Task completed"`. -/
def fifoDispatch (nb_proc : Nat) (env : FifoEnv) (s : FifoState) (name : String) : FifoState :=
  if s.completed_tasks < nb_proc then
    { s with completed_tasks := s.completed_tasks + 1
             trace := s.trace ++ [FifoEvent.send s.completed_tasks name] }
  else
    match (List.range nb_proc).find? (env.select s.select_calls) with
    | none =>
      { s with select_calls := s.select_calls + 1
               trace := s.trace ++ [FifoEvent.select s.select_calls] }
    | some i =>
      let notification := env.notification s.read_calls
      { s with select_calls := s.select_calls + 1
               read_calls := s.read_calls + 1
               trace := s.trace ++ [FifoEvent.select s.select_calls, FifoEvent.read i notification]
                 ++ (if notification == "Task completed" then [FifoEvent.send i name] else []) }

/-- Body of the `readdir` loop of `fifo_process_directory`. -/
def fifoDirectoryEntry (nb_proc : Nat) (env : FifoEnv) (s : FifoState) (entry : dirent) :
    FifoState :=
  if isDotEntry entry then s else fifoDispatch nb_proc env s entry.d_name

/-- The `readdir` loop of `fifo_process_directory`. -/
def fifoDirectoryLoop (nb_proc : Nat) (env : FifoEnv) (entries : List dirent) : FifoState :=
  entries.foldl (fifoDirectoryEntry nb_proc env) FifoState.init

/-- Function `fifo_process_directory`, for non-null pointers and a data source
that `opendir` opens, with system calls that do not fail; `none` is `exit(1)`. -/
def fifo_process_directory (nb_proc : Nat) (env : FifoEnv) (entries : List dirent) :
    Option FifoState :=
  if nb_proc = 0 then none else some (fifoDirectoryLoop nb_proc env entries)

/-- The statement `file[strlen(file) - 1] = '\0';`. -/
def dropLastChar (file : String) : String :=
  String.mk file.data.dropLast

/-- Body of the `fgets` loop of `fifo_process_files`. -/
def fifoFilesLine (nb_proc : Nat) (env : FifoEnv) (s : FifoState) (file : String) : FifoState :=
  fifoDispatch nb_proc env s (dropLastChar file)

/-- The `fgets` loop of `fifo_process_files`. -/
def fifoFilesLoop (nb_proc : Nat) (env : FifoEnv) (lines : List String) : FifoState :=
  lines.foldl (fifoFilesLine nb_proc env) FifoState.init

/-- Function `fifo_process_files`, for non-null pointers and a file list that
`fopen` opens, with system calls that do not fail; `lines` is what `fgets`
returns until `NULL`, and `none` is `exit(1)`. -/
def fifo_process_files (nb_proc : Nat) (env : FifoEnv) (lines : List String) :
    Option FifoState :=
  if nb_proc = 0 then none else some (fifoFilesLoop nb_proc env lines)

/-- Whether the event is a task written to `command_fifos[i]`. -/
def FifoEvent.isSendTo (i : Nat) : FifoEvent → Bool
  | .send w _ => w == i
  | _ => false

/-- Whether the event is a record read from `notify_fifos[i]`. -/
def FifoEvent.isReadFrom (i : Nat) : FifoEvent → Bool
  | .read w _ => w == i
  | _ => false

/-- Whether the event is a task written to some command FIFO. -/
def FifoEvent.isSend : FifoEvent → Bool
  | .send _ _ => true
  | _ => false

/-- Whether the event is a record read from some notify FIFO. -/
def FifoEvent.isRead : FifoEvent → Bool
  | .read _ _ => true
  | _ => false

/-- Tasks outstanding at worker `i` after the calls of `trace`: tasks written to
its command FIFO minus completion records read from its notify FIFO. -/
def outstanding (trace : List FifoEvent) (i : Nat) : Int :=
  (trace.countP (FifoEvent.isSendTo i) : Int) - (trace.countP (FifoEvent.isReadFrom i) : Int)

/-- The name arguments of the sends of a trace, in order. -/
def sentNames : List FifoEvent → List String
  | [] => []
  | .send _ name :: later => name :: sentNames later
  | _ :: later => sentNames later

/-- At position `n` of the trace, if the call is a `select`, every worker it
reports readable has a task outstanding (a completion record can only be
pending for a task sent and not yet acknowledged). -/
def readyHavePending (nb_proc : Nat) (env : FifoEnv) (tr : List FifoEvent) (n : Nat) : Bool :=
  match tr[n]? with
  | some (.select k) =>
    (List.range nb_proc).all fun i => !env.select k i || decide (1 ≤ outstanding (tr.take n) i)
  | _ => true

/-- Every `select` of the trace reports readable only workers with a pending
completion record. -/
def SelectSound (nb_proc : Nat) (env : FifoEnv) (trace : List FifoEvent) : Prop :=
  ∀ n, n < trace.length → readyHavePending nb_proc env trace n = true

/-- No worker has more than one task outstanding at any point of the trace. -/
def AtMostOneOutstanding (trace : List FifoEvent) : Prop :=
  ∀ p, p <+: trace → ∀ i, outstanding p i ≤ 1

/-- Every send of the trace goes either to a worker `i < nb_proc` that no
earlier call concerned, or to the worker whose record was read by the call just
before. -/
def SendsJustified (nb_proc : Nat) (trace : List FifoEvent) : Prop :=
  ∀ p i name, p ++ [FifoEvent.send i name] <+: trace →
    (i < nb_proc ∧ (∀ e, e ∈ p → e.isSendTo i = false ∧ e.isReadFrom i = false)) ∨
    (∃ q notification, p = q ++ [FifoEvent.read i notification])

/-! ## `mq_processes.c` : persistent workers behind one message queue -/

/-- The calls the dispatcher of the message-queue back end makes:
`send_task_to_mq` with `children[child_index]` as addressee and a target name
(`none`: the buffer `file_path` of `mq_process_files` when nothing was read into
it), `msgrcv`, and `nullDirent`: the call
`send_task_to_mq(..., dir->d_name, mq, children[child_index])` made while `dir`
is `NULL`, in which `strcpy(dir_task.object_directory, target_dir)` reads
through the null entry and the process dies before `msgsnd`. -/
inductive MqEvent where
  | send (child_index : Int) (target_dir : Option String)
  | recv
  | nullDirent (child_index : Int)
deriving DecidableEq, Repr

/-- Dispatcher state of `mq_process_directory`; `crashed` tells that the process
died in its last call. -/
structure MqState where
  running_workers : Int
  tasks_left : Int
  trace : List MqEvent
  crashed : Bool := false
deriving DecidableEq, Repr

/-- Whether the event is a task sent. -/
def MqEvent.isSend : MqEvent → Bool
  | .send _ _ => true
  | .recv => false
  | .nullDirent _ => false

/-- Whether the event is a receive. -/
def MqEvent.isRecv : MqEvent → Bool
  | .recv => true
  | .send _ _ => false
  | .nullDirent _ => false

/-- Whether the event is a call of `send_task_to_mq`, completed or not. -/
def MqEvent.isSendCall : MqEvent → Bool
  | .send _ _ => true
  | .recv => false
  | .nullDirent _ => true

/-- The test `dir->d_type == DT_DIR && strcmp(dir->d_name, ".") != 0 &&
strcmp(dir->d_name, "..") != 0`. -/
def isTaskDirectory (dir : dirent) : Bool :=
  dir.d_type == DT_DIR && dir.d_name != "." && dir.d_name != ".."

/-- Body of the `readdir` loop of `mq_process_directory` (step 2). -/
def mqFillEntry (process_count : Nat) (s : MqState) (dir : dirent) : MqState :=
  if isTaskDirectory dir then
    { s with running_workers := s.running_workers - 1
             trace := s.trace ++
               [MqEvent.send ((process_count : Int) - s.running_workers) (some dir.d_name)] }
  else s

/-- Step 2 of `mq_process_directory`: `running_workers = config->process_count`
and the `readdir` loop. -/
def mqFill (process_count : Nat) (entries : List dirent) : MqState :=
  entries.foldl (mqFillEntry process_count)
    { running_workers := process_count, tasks_left := 0, trace := [] }

/-- Body of the `fgets` loop of `mq_process_files` (step 2); the event keeps the
file path as its target. -/
def mqFilesFillLine (process_count : Nat) (s : MqState) (file_path : String) : MqState :=
  { s with running_workers := s.running_workers - 1
           trace := s.trace ++
             [MqEvent.send ((process_count : Int) - s.running_workers)
               (some (String.mk (file_path.data.takeWhile (fun c => c != '\n'))))] }

/-- Step 2 of `mq_process_files`. -/
def mqFilesFill (process_count : Nat) (lines : List String) : MqState :=
  lines.foldl (mqFilesFillLine process_count)
    { running_workers := process_count, tasks_left := 0, trace := [] }

/-- The part of the step-3 loop body of `mq_process_directory` run on receipt
of a message: `msgrcv(...); running_workers--; tasks_left--;`. -/
def mqSteadyReceive (s : MqState) : MqState :=
  { s with
    running_workers := s.running_workers - 1
    tasks_left := s.tasks_left - 1
    trace := s.trace ++ [MqEvent.recv] }

/-- Body of the loop `while (tasks_left > 0)` of `mq_process_directory`
(step 3).  The loop runs after `readdir` has returned `NULL`, so `dir` is
`NULL` in the call of `send_task_to_mq` under `if (running_workers > 0)`: the
process dies in that call, and the two decrements after it are not run. -/
def mqSteadyBody (process_count : Nat) (s : MqState) : MqState :=
  let s1 := mqSteadyReceive s
  if s1.running_workers > 0 then
    { s1 with
      crashed := true
      trace := s1.trace ++ [MqEvent.nullDirent ((process_count : Int) - s1.running_workers)] }
  else s1

/-- The loop `while (tasks_left > 0)` of step 3, unrolled `fuel` times; it goes
no further once the process has died. -/
def mqSteadyLoop (process_count : Nat) : Nat → MqState → MqState
  | 0, s => s
  | fuel + 1, s =>
    if s.crashed then s
    else if s.tasks_left > 0 then
      mqSteadyLoop process_count fuel (mqSteadyBody process_count s)
    else s

/-- The loop `while (running_workers > 0) { msgrcv(...); running_workers--; }`
of step 4, unrolled `fuel` times. -/
def mqCleanupLoop : Nat → MqState → MqState
  | 0, s => s
  | fuel + 1, s =>
    if s.running_workers > 0 then
      mqCleanupLoop fuel
        { s with running_workers := s.running_workers - 1, trace := s.trace ++ [MqEvent.recv] }
    else s

/-- Function `mq_process_directory`, for a non-null configuration and children
array, a valid queue and a data path that `opendir` opens, in a model where
every `msgrcv` returns.  Each loop gets as many unrollings as its counter
allows iterations; step 4 is not reached when the process died in step 3. -/
def mq_process_directory (process_count : Nat) (entries : List dirent) : MqState :=
  let s2 := mqFill process_count entries
  let s3 : MqState := { s2 with tasks_left := s2.running_workers }
  let s3 := mqSteadyLoop process_count s3.tasks_left.toNat s3
  if s3.crashed then s3 else mqCleanupLoop s3.running_workers.toNat s3

/-- The part of the step-3 loop body of `mq_process_files` run on receipt of a
message: `msgrcv(...); running_workers++; tasks_left--;`. -/
def mqFilesSteadyReceive (s : MqState) : MqState :=
  { s with
    running_workers := s.running_workers + 1
    tasks_left := s.tasks_left - 1
    trace := s.trace ++ [MqEvent.recv] }

/-- Body of the loop `while (tasks_left > 0)` of `mq_process_files` (step 3).
`file_path` is what the buffer of that name holds once the `fgets` loop is over
(`none`: never written). -/
def mqFilesSteadyBody (process_count : Nat) (file_path : Option String) (s : MqState) :
    MqState :=
  let s1 := mqFilesSteadyReceive s
  if s1.running_workers < (process_count : Int) then
    { s1 with
      running_workers := s1.running_workers - 1
      tasks_left := s1.tasks_left + 1
      trace := s1.trace ++
        [MqEvent.send ((process_count : Int) - s1.running_workers) file_path] }
  else s1

/-- The loop `while (tasks_left > 0)` of `mq_process_files`, unrolled at most
`fuel` times; `none` when the loop is still running after `fuel` iterations. -/
def mqFilesSteadyLoop (process_count : Nat) (file_path : Option String) :
    Nat → MqState → Option MqState
  | 0, s => if s.tasks_left > 0 then none else some s
  | fuel + 1, s =>
    if s.tasks_left > 0 then
      mqFilesSteadyLoop process_count file_path fuel
        (mqFilesSteadyBody process_count file_path s)
    else some s

/-- Content of the buffer `file_path` after the `fgets` loop of
`mq_process_files`: the last line read, cut at its newline. -/
def lastFilePath (lines : List String) : Option String :=
  lines.getLast?.map fun l => String.mk (l.data.takeWhile (fun c => c != '\n'))

/-- State of `mq_process_files` when it enters step 3:
`tasks_left = running_workers`. -/
def mqFilesSteadyStart (process_count : Nat) (lines : List String) : MqState :=
  { mqFilesFill process_count lines with
    tasks_left := (mqFilesFill process_count lines).running_workers }

/-- Function `mq_process_files`, for a non-null configuration and children
array, a valid queue and a file list that `fopen` opens, in a model where every
`msgrcv` returns.  `none`: step 3 is still running after `fuel` iterations. -/
def mq_process_files (process_count : Nat) (lines : List String) (fuel : Nat) :
    Option MqState :=
  match mqFilesSteadyLoop process_count (lastFilePath lines) fuel
      (mqFilesSteadyStart process_count lines) with
  | none => none
  | some s3 => some (mqCleanupLoop s3.running_workers.toNat s3)

/-- A message of the queue: its type (`mtype`) and its text, read as a task. -/
structure mq_message_t where
  mtype : Int
  mtext : task_t
deriving DecidableEq, Repr

/-- What a worker of the message-queue pool does, in order: calls of
`task->task_callback(task)` and messages it sends. -/
inductive MqWorkerEvent where
  | invoke (task : task_t)
  | msgsnd (message : mq_message_t)
deriving DecidableEq, Repr

/-- How a run of `child_process` over the messages available ends: `left`
when it went out of the loop through `break`, `waiting` when it sits in `msgrcv`,
`nullCall` when it called through a `NULL` function pointer (undefined
behaviour: the run is not followed further). -/
inductive ChildStatus where
  | left
  | waiting
  | nullCall
deriving DecidableEq, Repr

/-- Whether the pointer `task = (task_t *) message.mtext` is `NULL`: it is the
address of a field of the local variable `message`, so it never is. -/
def mtextPointerIsNull (_message : mq_message_t) : Bool := false

/-- Function `child_process`, over the messages its calls of `msgrcv` return.
The test of the loop is `task != NULL`, on the pointer to the message text. -/
def child_process : List mq_message_t → List MqWorkerEvent × ChildStatus
  | [] => ([], ChildStatus.waiting)
  | message :: later =>
    if !mtextPointerIsNull message then
      match message.mtext.task_callback with
      | none => ([MqWorkerEvent.invoke message.mtext], ChildStatus.nullCall)
      | some _ =>
        (MqWorkerEvent.invoke message.mtext ::
          MqWorkerEvent.msgsnd { message with mtype := 1 } :: (child_process later).1,
          (child_process later).2)
    else ([], ChildStatus.left)

/-- The messages `close_processes` sends, in order: for each child a task with
a `NULL` callback (the initialiser leaves the other bytes at zero), of type the
PID of the child. -/
def close_processes (children : List Int) : List mq_message_t :=
  children.map fun pid => { mtype := pid, mtext := { task_callback := none, argv := "" } }

/-- The System V call `msgrcv(mq, &message, size, msgtyp, 0)` on a queue that
holds `queue` (oldest first), as `msgrcv(2)` specifies it: with `msgtyp = 0` the
first message of the queue, with `msgtyp > 0` the first message of that type,
with `msgtyp < 0` the first message of the lowest type not above `-msgtyp`.
Result: the message and the queue left, `none` when the call has to wait. -/
def msgrcv (queue : List mq_message_t) (msgtyp : Int) : Option (mq_message_t × List mq_message_t) :=
  if msgtyp = 0 then
    match queue with
    | [] => none
    | m :: later => some (m, later)
  else if msgtyp > 0 then
    match queue.find? (fun m => m.mtype == msgtyp) with
    | none => none
    | some m => some (m, queue.erase m)
  else
    match (queue.filter (fun m => m.mtype ≤ -msgtyp)).map (fun m => m.mtype) with
    | [] => none
    | t :: ts =>
      match queue.find? (fun m => m.mtype == ts.foldl min t) with
      | none => none
      | some m => some (m, queue.erase m)

/-- The call `msgsnd(mq, &message, size, 0)`: the message goes to the end of
the queue. -/
def msgsnd (queue : List mq_message_t) (message : mq_message_t) : List mq_message_t :=
  queue ++ [message]

/-- The receive of a worker, `msgrcv(mq, &message, sizeof(task_t), 0, 0)` in
`child_process`; the PID of the worker is no argument of the call. -/
def childReceive (_worker_pid : Int) (queue : List mq_message_t) :
    Option (mq_message_t × List mq_message_t) :=
  msgrcv queue 0

/-- The receive of the dispatcher, `msgrcv(mq, &message, sizeof(task_t), 0, 0)`
in `mq_process_directory`. -/
def dispatcherReceive (queue : List mq_message_t) : Option (mq_message_t × List mq_message_t) :=
  msgrcv queue 0

/-- The code addresses stored in the `task_callback` field of the tasks built
by the dispatchers. -/
inductive WorkFunction where
  | process_directory
  | process_file
  | parse_dir
deriving DecidableEq, Repr

/-- Type `directory_task_t`. -/
structure directory_task_t where
  task_callback : WorkFunction
  object_directory : String
  temporary_directory : String
deriving DecidableEq, Repr

/-- Type `file_task_t`. -/
structure file_task_t where
  task_callback : WorkFunction
  object_file : String
  temporary_directory : String
deriving DecidableEq, Repr

/-- The string `snprintf(buffer, size, "%s/%s", a, b)` leaves in `buffer`: the
first `size - 1` characters of `a/b`. -/
def snprintfPath (size : Nat) (a b : String) : String :=
  String.mk ((a.data ++ '/' :: b.data).take (size - 1))

/-- The task `send_task` of `fifo_processes.c` writes to the command FIFO, for
a `temp_files` that fits its buffer.  `STR_MAX_LEN` is the size of the string
fields of a task. -/
def send_task (STR_MAX_LEN : Nat) (data_source temp_files dir_name : String) :
    directory_task_t :=
  { task_callback := WorkFunction.process_directory
    object_directory := snprintfPath STR_MAX_LEN data_source dir_name
    temporary_directory := temp_files }

/-- The task `send_task_to_mq` copies into the message it sends, for strings
that fit the buffers: `strcpy(dir_task.object_directory, data_source)`,
`strcpy(dir_task.temporary_directory, temp_files)` and
`dir_task.task_callback = parse_dir` give `dir_task`, and
`strcpy(dir_task.object_directory, target_dir)` writes `object_directory` a
second time. -/
def send_task_to_mq (data_source temp_files target_dir : String) : directory_task_t :=
  let dir_task : directory_task_t :=
    { task_callback := WorkFunction.parse_dir
      object_directory := data_source
      temporary_directory := temp_files }
  { dir_task with object_directory := target_dir }

/-- The task `send_task_file` of `fifo_processes.c` writes to the command FIFO. -/
def send_task_file (_data_source temp_files file_name : String) : file_task_t :=
  { task_callback := WorkFunction.process_file
    object_file := file_name
    temporary_directory := temp_files }

/-! ## `analysis.c` : where the work functions write -/

/-- The function `basename` of `<libgen.h>` on the characters of a path: `.`
for the empty path, `/` for a path made of slashes, else the last component,
trailing slashes left out. -/
def basenameChars (path : List Char) : List Char :=
  if path = [] then ['.']
  else
    let stripped := path.reverse.dropWhile (fun c => c == '/')
    if stripped = [] then ['/']
    else (stripped.takeWhile (fun c => c != '/')).reverse

/-- The function `basename` of `<libgen.h>`. -/
def basename (path : String) : String :=
  String.mk (basenameChars path.data)

/-- The path `process_directory` opens for writing:
`snprintf(output_path, 255, "%s/%s", temporary_directory, basename(object_directory))`. -/
def processDirectoryOutput (task : directory_task_t) : String :=
  snprintfPath 255 task.temporary_directory (basename task.object_directory)

/-- Function `concat_path` of `utility.c` for non-null arguments and a non-empty
first part: the first part, a `/` unless it ends with one, the second part. -/
def concat_path (first second : String) : String :=
  if first.data.getLast? = some '/' then String.mk (first.data ++ second.data)
  else String.mk (first.data ++ '/' :: second.data)

/-- The path `process_file` passes to `parse_file` as its output (opened there
in append mode and locked with `flock`):
`concat_path(file_task->temporary_directory, "step2_output", output)`. -/
def processFileOutput (task : file_task_t) : String :=
  concat_path task.temporary_directory "step2_output"

/-! ## `fifo_processes.c` : creation and removal of the FIFOs -/

/-- The names present in the directory of the FIFOs, with the names the calls of
`mkfifo` and of `unlink` that succeeded were given, in order. -/
structure FifoNames where
  present : Finset String
  created : List String
  removed : List String

/-- The call `mkfifo(filename, 0666)`: fails when the name exists. -/
def mkfifo (s : FifoNames) (filename : String) : Option FifoNames :=
  if filename ∈ s.present then none
  else some { s with present := insert filename s.present, created := s.created ++ [filename] }

/-- The call `unlink(filename)`: fails when the name does not exist. -/
def unlink (s : FifoNames) (filename : String) : Option FifoNames :=
  if filename ∈ s.present then
    some { s with present := s.present.erase filename, removed := s.removed ++ [filename] }
  else none

/-- Function `make_fifos`: the loop `for (i = 0; i < processes_count; i++)` over
`mkfifo`, where `expand i` is the name `sprintf(filename, file_format, i)`
writes; `none` is `exit(1)`. -/
def make_fifos (processes_count : Nat) (expand : Nat → String) (s : FifoNames) :
    Option FifoNames :=
  (List.range processes_count).foldlM (fun st i => mkfifo st (expand i)) s

/-- Function `erase_fifos`: the same loop over `unlink`; `none` is `exit(1)`. -/
def erase_fifos (processes_count : Nat) (expand : Nat → String) (s : FifoNames) :
    Option FifoNames :=
  (List.range processes_count).foldlM (fun st i => unlink st (expand i)) s

/-! ## `configuration.c`, `utility.c` : validity of a configuration -/

/-- What a path names in the file system. -/
inductive FileKind where
  | regular
  | directory
  | other
deriving DecidableEq, Repr

/-- The fields of `configuration_t`. -/
structure configuration_t where
  data_path : String
  temporary_directory : String
  output_file : String
  is_verbose : Bool
  cpu_core_multiplier : Nat
  process_count : Nat
deriving DecidableEq, Repr

/-- Function `directory_exists` of `utility.c`: `access(path, F_OK) == 0`, on a
file system `fs` that tells for each path what it names, if anything. -/
def directory_exists (fs : String → Option FileKind) (path : String) : Bool :=
  (fs path).isSome

/-- Function `path_to_file_exists` of `utility.c`:
`stat(path, &sb) == 0 && S_ISREG(sb.st_mode)`. -/
def path_to_file_exists (fs : String → Option FileKind) (path : String) : Bool :=
  fs path == some FileKind.regular

/-- Function `is_configuration_valid`. -/
def is_configuration_valid (fs : String → Option FileKind) (configuration : configuration_t) :
    Bool :=
  directory_exists fs configuration.data_path &&
    directory_exists fs configuration.temporary_directory &&
    path_to_file_exists fs configuration.output_file

/-! ## `direct_fork.c` : the files step -/

/-- The calls the process that runs `direct_fork_files` makes: the work function
called in that very process (`file_task->task_callback(&task)` in the loop),
`fork` and `wait`. -/
inductive DirectFilesEvent where
  | parentCall (task : file_task_t)
  | fork (task : file_task_t)
  | wait
deriving DecidableEq, Repr

/-- Whether the event is a call to `fork`. -/
def DirectFilesEvent.isFork : DirectFilesEvent → Bool
  | .fork _ => true
  | _ => false

/-- Whether the event is a call of the work function in the parent. -/
def DirectFilesEvent.isParentCall : DirectFilesEvent → Bool
  | .parentCall _ => true
  | _ => false

/-- State of `direct_fork_files`. -/
structure DirectFilesState where
  running_processes : Int
  trace : List DirectFilesEvent
deriving DecidableEq, Repr

/-- Body of the `fgets` loop of `direct_fork_files`: the newline is cut, the
name copied into the task and the callback called; the block that forks is
inside a comment. -/
def directForkFilesLine (temp_files : String) (s : DirectFilesState) (file : String) :
    DirectFilesState :=
  { s with trace := s.trace ++
      [DirectFilesEvent.parentCall
        { task_callback := WorkFunction.process_file
          object_file := dropLastChar file
          temporary_directory := temp_files }] }

/-- The loop `while (running_processes > 0) { wait(NULL); running_processes--; }`
of `direct_fork_files`, unrolled `fuel` times. -/
def directFilesDrainLoop : Nat → DirectFilesState → DirectFilesState
  | 0, s => s
  | fuel + 1, s =>
    if s.running_processes > 0 then
      directFilesDrainLoop fuel
        { running_processes := s.running_processes - 1
          trace := s.trace ++ [DirectFilesEvent.wait] }
    else s

/-- Function `direct_fork_files`, for non-null paths and a file list that
`fopen` opens; `lines` is what `fgets` returns until `NULL`. -/
def direct_fork_files (temp_files : String) (nb_proc : Nat) (lines : List String) :
    DirectFilesState :=
  if nb_proc = 0 then { running_processes := 0, trace := [] }
  else
    let s := lines.foldl (directForkFilesLine temp_files) { running_processes := 0, trace := [] }
    directFilesDrainLoop s.running_processes.toNat s

/-! ## Names of the items issued as tasks -/

/-- The directory names of the sends of a trace of `mq_process_directory` that
carry one, in order. -/
def mqSentNames : List MqEvent → List String
  | [] => []
  | .send _ (some name) :: later => name :: mqSentNames later
  | _ :: later => mqSentNames later

/-- The task `send_file_task_to_mq` copies into the message it sends, for
strings that fit the buffers: `strcpy(file_task.object_file, data_source)` and
`strcpy(file_task.temporary_directory, temp_files)` give `file_task`, and
`strcpy(file_task.object_file, target_file)` writes `object_file` a second
time. -/
def send_file_task_to_mq (data_source temp_files target_file : String) : file_task_t :=
  let file_task : file_task_t :=
    { task_callback := WorkFunction.process_file
      object_file := data_source
      temporary_directory := temp_files }
  { file_task with object_file := target_file }

/-- The statement `file_path[strcspn(file_path, "\n")] = 0;` of
`mq_process_files`. -/
def cutAtNewline (file_path : String) : String :=
  String.mk (file_path.data.takeWhile (fun c => c != '\n'))

/-! ## `configuration.c` : reading a `key = value` line -/

/-- The function `isspace` of `<ctype.h>` in the C locale. -/
def isspace (c : Char) : Bool :=
  c == ' ' || c == '\t' || c == '\n' || c == '\x0b' || c == '\x0c' || c == '\r'

/-- Function `skip_spaces` on the characters a non-null pointer points to (up to
the terminating zero): the pointer moves to the first non-space character. -/
def skip_spaces (str : List Char) : List Char :=
  str.dropWhile isspace

/-- Function `check_equal` for a non-null pointer: `none` is `NULL`. -/
def check_equal (str : List Char) : Option (List Char) :=
  match skip_spaces str with
  | '=' :: after => some (skip_spaces after)
  | _ => none

/-- Function `get_word`: the word copied into `target` and the characters the
returned pointer points to. -/
def get_word (source : List Char) : List Char × List Char :=
  let start := skip_spaces source
  (start.takeWhile (fun c => !isspace c && c != '\x00'),
    start.dropWhile (fun c => !isspace c && c != '\x00'))

/-- The three calls `get_word`, `check_equal`, `get_word` of the loop body of
`read_cfg_file` on one line: the key and the value, `none` when `check_equal`
returns `NULL` (the line is then ignored). -/
def cfgLineKeyValue (line : List Char) : Option (List Char × List Char) :=
  match check_equal (get_word line).2 with
  | none => none
  | some line_ptr => some ((get_word line).1, (get_word line_ptr).1)

/-! ## `reducers.c` : senders and their recipients -/

/-- Type `recipient_t`: a node of the recipients list of a sender.  The counter
`occurrences` is printed with `%u`: an `unsigned int`, whose values are
`0..4294967295` and whose increment wraps from `4294967295` to `0`. -/
structure recipient_t where
  recipient_address : String
  occurrences : Nat
deriving DecidableEq, Repr

/-- Type `sender_t`: a node of the senders list, with its recipients from
`head` to `tail`. -/
structure sender_t where
  sender_address : String
  recipients : List recipient_t
deriving DecidableEq, Repr

/-- Function `add_source_to_list`: the list unchanged when a node has the
address, else a new node with no recipient in front. -/
def add_source_to_list (list : List sender_t) (source_email : String) : List sender_t :=
  if list.any (fun current => current.sender_address == source_email) then list
  else { sender_address := source_email, recipients := [] } :: list

/-- Function `find_source_in_list` for a non-null `source_email`: the first node
with the address, `none` for `NULL`. -/
def find_source_in_list : List sender_t → String → Option sender_t
  | [], _ => none
  | current_source :: next, source_email =>
    if current_source.sender_address == source_email then some current_source
    else find_source_in_list next source_email

/-- The `while` loop of `add_recipient_to_source`: the list with the
occurrences of the first node of that address incremented
(`current_recipient->occurrences++` on an `unsigned int`, modulo `2^32`),
`none` when the loop ends without finding one. -/
def incrementRecipient : List recipient_t → String → Option (List recipient_t)
  | [], _ => none
  | current_recipient :: next, recipient_email =>
    if current_recipient.recipient_address == recipient_email then
      some ({ current_recipient with
              occurrences := (current_recipient.occurrences + 1) % 4294967296 } :: next)
    else
      match incrementRecipient next recipient_email with
      | none => none
      | some rest => some (current_recipient :: rest)

/-- Function `add_recipient_to_source` for non-null arguments. -/
def add_recipient_to_source (source : sender_t) (recipient_email : String) : sender_t :=
  match incrementRecipient source.recipients recipient_email with
  | some recipients => { source with recipients := recipients }
  | none =>
    { source with
      recipients := source.recipients ++
        [{ recipient_address := recipient_email, occurrences := 1 }] }

/-- Invariant of the parent of `direct_fork_directories`: the counter stays in
`0..nb_proc`, every call was made with the counter in range (a `fork` below
`nb_proc`), and the counter is the number of successful forks minus the number
of waits. -/
def ForkInv (nb_proc : Nat) (s : DirectForkState) : Prop :=
  0 ≤ s.running_processes ∧ s.running_processes ≤ nb_proc ∧
  (∀ ev, ev ∈ s.trace →
    (0 ≤ ev.before ∧ ev.before ≤ nb_proc) ∧ (0 ≤ ev.after ∧ ev.after ≤ nb_proc) ∧
    (ev.isFork = true → ev.before < nb_proc)) ∧
  s.running_processes =
    (s.trace.countP ForkEvent.isForkOk : Int) - (s.trace.countP ForkEvent.isWait : Int)

/-- Invariant of the FIFO dispatch loops: no call so far concerns a worker of
index `completed_tasks` or more, every send is justified, and when the selects
are sound no worker ever had two tasks outstanding. -/
def FifoInv (nb_proc : Nat) (env : FifoEnv) (s : FifoState) : Prop :=
  (∀ e, e ∈ s.trace → ∀ i, s.completed_tasks ≤ i →
    e.isSendTo i = false ∧ e.isReadFrom i = false) ∧
  SendsJustified nb_proc s.trace ∧
  (SelectSound nb_proc env s.trace → AtMostOneOutstanding s.trace)

/-! ## `direct_fork.c` : proofs -/

theorem forkInv_init (nb_proc : Nat) :
    ForkInv nb_proc { running_processes := 0, fork_calls := 0, trace := [] } := by
  simp [ForkInv]

theorem forkInv_waitOne {nb_proc : Nat} {s : DirectForkState} (hs : ForkInv nb_proc s)
    (hpos : 0 < s.running_processes) : ForkInv nb_proc (waitOne s) := by
  obtain ⟨h0, h1, h2, h3⟩ := hs
  refine ⟨?_, ?_, ?_, ?_⟩
  · simp only [waitOne]; omega
  · simp only [waitOne]; omega
  · intro ev hev
    simp only [waitOne, List.mem_append, List.mem_singleton] at hev
    rcases hev with hev | hev
    · exact h2 ev hev
    · subst hev
      simp only [ForkEvent.before, ForkEvent.after, ForkEvent.isFork]
      refine ⟨⟨by omega, by omega⟩, ⟨by omega, by omega⟩, ?_⟩
      intro h; exact absurd h (by decide)
  · simp only [waitOne, List.countP_append, List.countP_singleton, ForkEvent.isForkOk,
      ForkEvent.isWait]
    simp
    omega

theorem forkInv_awaitCapacityLoop {nb_proc : Nat} (hnb : 1 ≤ nb_proc) :
    ∀ (fuel : Nat) (s : DirectForkState), ForkInv nb_proc s →
      (s.running_processes - nb_proc + 1).toNat ≤ fuel →
      ForkInv nb_proc (awaitCapacityLoop nb_proc fuel s) ∧
        (awaitCapacityLoop nb_proc fuel s).running_processes < nb_proc := by
  intro fuel
  induction fuel with
  | zero =>
    intro s hs hfuel
    simp only [awaitCapacityLoop]
    exact ⟨hs, by omega⟩
  | succ fuel ih =>
    intro s hs hfuel
    simp only [awaitCapacityLoop]
    split
    · rename_i hge
      have hpos : 0 < s.running_processes := by omega
      apply ih (waitOne s) (forkInv_waitOne hs hpos)
      simp only [waitOne]
      omega
    · rename_i hlt
      exact ⟨hs, by omega⟩

theorem forkInv_awaitCapacity {nb_proc : Nat} (hnb : 1 ≤ nb_proc) {s : DirectForkState}
    (hs : ForkInv nb_proc s) :
    ForkInv nb_proc (awaitCapacity nb_proc s) ∧
      (awaitCapacity nb_proc s).running_processes < nb_proc :=
  forkInv_awaitCapacityLoop hnb _ s hs (le_refl _)

theorem forkInv_forkTask {nb_proc : Nat} (forkOk : Nat → Bool) {s : DirectForkState}
    (hs : ForkInv nb_proc s) (hlt : s.running_processes < nb_proc) (entry : dirent) :
    ForkInv nb_proc (forkTask forkOk s entry) := by
  obtain ⟨h0, h1, h2, h3⟩ := hs
  cases hok : forkOk s.fork_calls
  · refine ⟨?_, ?_, ?_, ?_⟩
    · simp only [forkTask, hok]; simpa using h0
    · simp only [forkTask, hok]; simpa using h1
    · intro ev hev
      simp only [forkTask, hok, List.mem_append, List.mem_singleton] at hev
      rcases hev with hev | hev
      · exact h2 ev hev
      · subst hev
        simp only [ForkEvent.before, ForkEvent.after, ForkEvent.isFork]
        simp
        omega
    · simp only [forkTask, hok, List.countP_append, List.countP_singleton, ForkEvent.isForkOk,
        ForkEvent.isWait]
      simp
      omega
  · refine ⟨?_, ?_, ?_, ?_⟩
    · simp only [forkTask, hok]; simp; omega
    · simp only [forkTask, hok]; simp; omega
    · intro ev hev
      simp only [forkTask, hok, List.mem_append, List.mem_singleton] at hev
      rcases hev with hev | hev
      · exact h2 ev hev
      · subst hev
        simp only [ForkEvent.before, ForkEvent.after, ForkEvent.isFork]
        simp
        omega
    · simp only [forkTask, hok, List.countP_append, List.countP_singleton, ForkEvent.isForkOk,
        ForkEvent.isWait]
      simp
      omega

theorem forkInv_directForkEntry {nb_proc : Nat} (hnb : 1 ≤ nb_proc) (forkOk : Nat → Bool)
    {s : DirectForkState} (hs : ForkInv nb_proc s) (entry : dirent) :
    ForkInv nb_proc (directForkEntry nb_proc forkOk s entry) := by
  unfold directForkEntry
  split
  · exact hs
  · have h := forkInv_awaitCapacity hnb hs
    exact forkInv_forkTask forkOk h.1 h.2 entry

theorem forkInv_foldl {nb_proc : Nat} (hnb : 1 ≤ nb_proc) (forkOk : Nat → Bool) :
    ∀ (entries : List dirent) (s : DirectForkState), ForkInv nb_proc s →
      ForkInv nb_proc (entries.foldl (directForkEntry nb_proc forkOk) s) := by
  intro entries
  induction entries with
  | nil => intro s hs; exact hs
  | cons e es ih =>
    intro s hs
    exact ih _ (forkInv_directForkEntry hnb forkOk hs e)

theorem forkInv_drainLoop {nb_proc : Nat} :
    ∀ (fuel : Nat) (s : DirectForkState), ForkInv nb_proc s →
      s.running_processes.toNat ≤ fuel →
      ForkInv nb_proc (drainLoop fuel s) ∧ (drainLoop fuel s).running_processes = 0 := by
  intro fuel
  induction fuel with
  | zero =>
    intro s hs hfuel
    simp only [drainLoop]
    exact ⟨hs, by have := hs.1; omega⟩
  | succ fuel ih =>
    intro s hs hfuel
    simp only [drainLoop]
    split
    · rename_i hpos
      apply ih (waitOne s) (forkInv_waitOne hs hpos)
      simp only [waitOne]
      omega
    · rename_i hle
      exact ⟨hs, by have := hs.1; omega⟩

theorem forkInv_direct_fork_directories {nb_proc : Nat} (hnb : 1 ≤ nb_proc)
    (entries : List dirent) (forkOk : Nat → Bool) :
    ForkInv nb_proc (direct_fork_directories nb_proc entries forkOk) ∧
      (direct_fork_directories nb_proc entries forkOk).running_processes = 0 := by
  unfold direct_fork_directories
  rw [if_neg (by omega)]
  exact forkInv_drainLoop _ _ (forkInv_foldl hnb forkOk entries _ (forkInv_init nb_proc))
    (le_refl _)

/-- Claim C2: in `direct_fork_directories` with `nb_proc >= 1`, for every sequence of
directory entries and every outcome of each `fork`, the counter
`running_processes` lies in `0..nb_proc` before and after every call the parent
makes, and `fork` is only called with `running_processes < nb_proc`. -/
theorem direct_fork_running_processes_bounded (nb_proc : Nat) (hnb : 1 ≤ nb_proc)
    (entries : List dirent) (forkOk : Nat → Bool) :
    ∀ ev, ev ∈ (direct_fork_directories nb_proc entries forkOk).trace →
      (0 ≤ ev.before ∧ ev.before ≤ nb_proc) ∧ (0 ≤ ev.after ∧ ev.after ≤ nb_proc) ∧
      (ev.isFork = true → ev.before < nb_proc) :=
  (forkInv_direct_fork_directories hnb entries forkOk).1.2.2.1

theorem direct_fork_running_processes_bounded_witness :
    1 ≤ 2 ∧ ForkEvent.fork "b" 1 true ∈
        (direct_fork_directories 2 [⟨"a", 4⟩, ⟨".", 4⟩, ⟨"b", 4⟩, ⟨"c", 4⟩] (fun _ => true)).trace ∧
      ((0 ≤ (ForkEvent.fork "b" 1 true).before ∧ (ForkEvent.fork "b" 1 true).before ≤ (2 : Nat)) ∧
        (0 ≤ (ForkEvent.fork "b" 1 true).after ∧ (ForkEvent.fork "b" 1 true).after ≤ (2 : Nat)) ∧
        ((ForkEvent.fork "b" 1 true).isFork = true → (ForkEvent.fork "b" 1 true).before < (2 : Nat))) :=
  ⟨by decide, by decide,
    direct_fork_running_processes_bounded 2 (by decide)
      [⟨"a", 4⟩, ⟨".", 4⟩, ⟨"b", 4⟩, ⟨"c", 4⟩] (fun _ => true) _ (by decide)⟩

/-- Claim C7: when `direct_fork_directories` returns (`nb_proc >= 1`, any source, any
`fork` outcomes), `running_processes` is 0 and the number of `wait` calls made
equals the number of forks that succeeded. -/
theorem direct_fork_returns_drained (nb_proc : Nat) (hnb : 1 ≤ nb_proc)
    (entries : List dirent) (forkOk : Nat → Bool) :
    (direct_fork_directories nb_proc entries forkOk).running_processes = 0 ∧
      (direct_fork_directories nb_proc entries forkOk).trace.countP ForkEvent.isWait =
        (direct_fork_directories nb_proc entries forkOk).trace.countP ForkEvent.isForkOk := by
  have h := forkInv_direct_fork_directories hnb entries forkOk
  refine ⟨h.2, ?_⟩
  have h3 := h.1.2.2.2
  rw [h.2] at h3
  omega

theorem direct_fork_returns_drained_witness :
    1 ≤ 2 ∧
    (direct_fork_directories 2 [⟨"a", 4⟩, ⟨".", 4⟩, ⟨"b", 4⟩, ⟨"c", 4⟩] (fun k => k != 1)).running_processes = 0 ∧
      (direct_fork_directories 2 [⟨"a", 4⟩, ⟨".", 4⟩, ⟨"b", 4⟩, ⟨"c", 4⟩] (fun k => k != 1)).trace.countP ForkEvent.isWait =
        (direct_fork_directories 2 [⟨"a", 4⟩, ⟨".", 4⟩, ⟨"b", 4⟩, ⟨"c", 4⟩] (fun k => k != 1)).trace.countP ForkEvent.isForkOk :=
  ⟨by decide, direct_fork_returns_drained 2 (by decide) _ _⟩

/-- Claim C9, failing run: with `nb_proc = 1`, entries `a`, `b` and a first `fork`
that fails, `direct_fork_directories` goes on, forks `b`, waits for it and
returns normally; entry `a` is skipped without any abort. -/
theorem direct_fork_failed_fork_is_skipped :
    direct_fork_directories 1 [⟨"a", 4⟩, ⟨"b", 4⟩] (fun k => k != 0) =
      { running_processes := 0, fork_calls := 2,
        trace := [ForkEvent.fork "a" 0 false, ForkEvent.fork "b" 0 true, ForkEvent.wait 1] } := by
  decide

/-! ## `fifo_processes.c` : proofs -/

theorem outstanding_concat (t : List FifoEvent) (a : FifoEvent) (i : Nat) :
    outstanding (t ++ [a]) i =
      outstanding t i + (if a.isSendTo i = true then 1 else 0)
        - (if a.isReadFrom i = true then 1 else 0) := by
  simp only [outstanding, List.countP_append, List.countP_singleton]
  split <;> split <;> push_cast <;> omega

theorem outstanding_eq_zero_of_untouched (t : List FifoEvent) (i : Nat)
    (h : ∀ e, e ∈ t → e.isSendTo i = false ∧ e.isReadFrom i = false) :
    outstanding t i = 0 := by
  have h1 : t.countP (FifoEvent.isSendTo i) = 0 := by
    rw [List.countP_eq_zero]
    intro e he
    simp [(h e he).1]
  have h2 : t.countP (FifoEvent.isReadFrom i) = 0 := by
    rw [List.countP_eq_zero]
    intro e he
    simp [(h e he).2]
  simp [outstanding, h1, h2]

theorem atMostOne_concat {t : List FifoEvent} {a : FifoEvent}
    (ht : AtMostOneOutstanding t) (ha : ∀ i, outstanding (t ++ [a]) i ≤ 1) :
    AtMostOneOutstanding (t ++ [a]) := by
  intro p hp i
  rcases List.prefix_concat_iff.mp hp with h | h
  · rw [h]; exact ha i
  · exact ht p h i

theorem sendsJustified_concat {nb_proc : Nat} {t : List FifoEvent} {a : FifoEvent}
    (ht : SendsJustified nb_proc t)
    (ha : ∀ i name, a = FifoEvent.send i name →
      (i < nb_proc ∧ (∀ e, e ∈ t → e.isSendTo i = false ∧ e.isReadFrom i = false)) ∨
      (∃ q notification, t = q ++ [FifoEvent.read i notification])) :
    SendsJustified nb_proc (t ++ [a]) := by
  intro p i name hp
  rcases List.prefix_concat_iff.mp hp with h | h
  · have h1 := List.append_inj' h rfl
    obtain ⟨hpt, hsa⟩ := h1
    have hsa' : a = FifoEvent.send i name := by
      simpa using hsa.symm
    rw [hpt]
    exact ha i name hsa'
  · exact ht p i name h

theorem selectSound_initial {nb_proc : Nat} {env : FifoEnv} {t u : List FifoEvent}
    (h : SelectSound nb_proc env (t ++ u)) : SelectSound nb_proc env t := by
  intro n hn
  have h1 := h n (by simp; omega)
  simp only [readyHavePending] at h1 ⊢
  rw [List.getElem?_append_left hn, List.take_append_of_le_length (le_of_lt hn)] at h1
  exact h1

theorem selectSound_at {nb_proc : Nat} {env : FifoEnv} {t u : List FifoEvent} {k : Nat}
    (h : SelectSound nb_proc env (t ++ FifoEvent.select k :: u)) :
    ∀ i, i < nb_proc → env.select k i = true → 1 ≤ outstanding t i := by
  intro i hi hsel
  have h1 := h t.length (by simp)
  simp only [readyHavePending] at h1
  rw [List.getElem?_append_right (le_refl _)] at h1
  simp only [Nat.sub_self, List.getElem?_cons_zero, List.take_left] at h1
  rw [List.all_eq_true] at h1
  have h2 := h1 i (List.mem_range.mpr hi)
  simpa [hsel] using h2

theorem find_range_some {nb_proc : Nat} {f : Nat → Bool} {i : Nat}
    (h : (List.range nb_proc).find? f = some i) : i < nb_proc ∧ f i = true :=
  ⟨List.mem_range.mp (List.mem_of_find?_eq_some h), List.find?_some h⟩

theorem fifoInv_init (nb_proc : Nat) (env : FifoEnv) : FifoInv nb_proc env FifoState.init := by
  refine ⟨?_, ?_, ?_⟩
  · intro e he; simp [FifoState.init] at he
  · intro p i name hp
    simp [FifoState.init] at hp
  · intro _ p hp i
    have : p = [] := by simpa [FifoState.init] using hp
    subst this
    simp [outstanding]

theorem fifoInv_dispatch {nb_proc : Nat} {env : FifoEnv} {s : FifoState}
    (hs : FifoInv nb_proc env s) (name : String) :
    FifoInv nb_proc env (fifoDispatch nb_proc env s name) := by
  obtain ⟨hB, hJ, hO⟩ := hs
  unfold fifoDispatch
  split
  · -- fill phase
    rename_i hlt
    refine ⟨?_, ?_, ?_⟩
    · intro e he i hi
      simp only [List.mem_append, List.mem_singleton] at he
      rcases he with he | he
      · exact hB e he i (by simp only at hi; omega)
      · subst he
        simp only at hi
        simp [FifoEvent.isSendTo, FifoEvent.isReadFrom]
        omega
    · apply sendsJustified_concat hJ
      intro i name' heq
      left
      simp only [FifoEvent.send.injEq] at heq
      obtain ⟨hi, _⟩ := heq
      subst hi
      exact ⟨hlt, fun e he => hB e he _ (le_refl _)⟩
    · intro hsound
      have ht := hO (selectSound_initial hsound)
      apply atMostOne_concat ht
      intro i
      rw [outstanding_concat]
      by_cases hi : s.completed_tasks = i
      · subst hi
        rw [outstanding_eq_zero_of_untouched _ _ (fun e he => hB e he _ (le_refl _))]
        simp [FifoEvent.isSendTo, FifoEvent.isReadFrom]
      · have := ht s.trace (List.prefix_refl _) i
        simp [FifoEvent.isSendTo, FifoEvent.isReadFrom, hi]
        exact this
  · rename_i hge
    split
    · -- select reports no FIFO of the array
      refine ⟨?_, ?_, ?_⟩
      · intro e he i hi
        simp only [List.mem_append, List.mem_singleton] at he
        rcases he with he | he
        · exact hB e he i hi
        · subst he
          simp [FifoEvent.isSendTo, FifoEvent.isReadFrom]
      · apply sendsJustified_concat hJ
        intro i name' heq
        exact absurd heq (by simp)
      · intro hsound
        have ht := hO (selectSound_initial hsound)
        apply atMostOne_concat ht
        intro i
        rw [outstanding_concat]
        have := ht s.trace (List.prefix_refl _) i
        simpa [FifoEvent.isSendTo, FifoEvent.isReadFrom] using this
    · rename_i i hfind
      obtain ⟨hi, hsel⟩ := find_range_some hfind
      -- facts shared by both outcomes of the comparison
      have hB2 : ∀ e, e ∈ s.trace ++ [FifoEvent.select s.select_calls,
            FifoEvent.read i (env.notification s.read_calls)] →
          ∀ j, s.completed_tasks ≤ j → e.isSendTo j = false ∧ e.isReadFrom j = false := by
        intro e he j hj
        simp only [List.mem_append, List.mem_cons, List.mem_singleton, List.not_mem_nil,
          or_false] at he
        rcases he with he | he | he
        · exact hB e he j hj
        · subst he; simp [FifoEvent.isSendTo, FifoEvent.isReadFrom]
        · subst he
          simp [FifoEvent.isSendTo, FifoEvent.isReadFrom]
          omega
      have hsplit : s.trace ++ [FifoEvent.select s.select_calls,
            FifoEvent.read i (env.notification s.read_calls)] =
          (s.trace ++ [FifoEvent.select s.select_calls]) ++
            [FifoEvent.read i (env.notification s.read_calls)] := by simp
      have hJ2 : SendsJustified nb_proc (s.trace ++ [FifoEvent.select s.select_calls,
            FifoEvent.read i (env.notification s.read_calls)]) := by
        rw [hsplit]
        apply sendsJustified_concat
        · apply sendsJustified_concat hJ
          intro j name' heq
          exact absurd heq (by simp)
        · intro j name' heq
          exact absurd heq (by simp)
      have hO2 : ∀ u, SelectSound nb_proc env (s.trace ++ [FifoEvent.select s.select_calls,
            FifoEvent.read i (env.notification s.read_calls)] ++ u) →
          AtMostOneOutstanding (s.trace ++ [FifoEvent.select s.select_calls,
            FifoEvent.read i (env.notification s.read_calls)]) ∧
          outstanding (s.trace ++ [FifoEvent.select s.select_calls,
            FifoEvent.read i (env.notification s.read_calls)]) i = 0 := by
        intro u hsound
        have hsound' : SelectSound nb_proc env (s.trace ++ FifoEvent.select s.select_calls ::
            (FifoEvent.read i (env.notification s.read_calls) :: u)) := by
          simpa using hsound
        have hpend := selectSound_at hsound' i hi hsel
        have ht := hO (selectSound_initial hsound')
        have hle := ht s.trace (List.prefix_refl _)
        have hsel1 : ∀ j, outstanding (s.trace ++ [FifoEvent.select s.select_calls]) j =
            outstanding s.trace j := by
          intro j
          rw [outstanding_concat]
          simp [FifoEvent.isSendTo, FifoEvent.isReadFrom]
        have hread : ∀ j, outstanding ((s.trace ++ [FifoEvent.select s.select_calls]) ++
            [FifoEvent.read i (env.notification s.read_calls)]) j =
            outstanding s.trace j - (if i = j then 1 else 0) := by
          intro j
          rw [outstanding_concat, hsel1]
          simp [FifoEvent.isSendTo, FifoEvent.isReadFrom]
        rw [hsplit]
        constructor
        · apply atMostOne_concat
          · apply atMostOne_concat ht
            intro j; rw [hsel1]; exact hle j
          · intro j
            rw [hread]
            have := hle j
            split <;> omega
        · rw [hread]
          have := hle i
          simp
          omega
      by_cases hnote : (env.notification s.read_calls == "Task completed") = true
      · simp only [if_pos hnote]
        refine ⟨?_, ?_, ?_⟩
        · intro e he j hj
          rw [List.mem_append, List.mem_singleton] at he
          rcases he with he | he
          · exact hB2 e he j hj
          · subst he
            simp only at hj
            simp [FifoEvent.isSendTo, FifoEvent.isReadFrom]
            omega
        · apply sendsJustified_concat hJ2
          intro j name' heq
          right
          simp only [FifoEvent.send.injEq] at heq
          obtain ⟨hij, _⟩ := heq
          subst hij
          exact ⟨s.trace ++ [FifoEvent.select s.select_calls], env.notification s.read_calls,
            by simp⟩
        · intro hsound
          obtain ⟨hA, hz⟩ := hO2 _ hsound
          apply atMostOne_concat hA
          intro j
          rw [outstanding_concat]
          by_cases hij : i = j
          · subst hij
            rw [hz]
            simp [FifoEvent.isSendTo, FifoEvent.isReadFrom]
          · have := hA _ (List.prefix_refl _) j
            simpa [FifoEvent.isSendTo, FifoEvent.isReadFrom, hij] using this
      · simp only [if_neg hnote, List.append_nil]
        refine ⟨hB2, hJ2, ?_⟩
        intro hsound
        exact (hO2 [] (by simpa using hsound)).1

theorem fifoInv_directory_foldl {nb_proc : Nat} {env : FifoEnv} :
    ∀ (entries : List dirent) (s : FifoState), FifoInv nb_proc env s →
      FifoInv nb_proc env (entries.foldl (fifoDirectoryEntry nb_proc env) s) := by
  intro entries
  induction entries with
  | nil => intro s hs; exact hs
  | cons e es ih =>
    intro s hs
    apply ih
    unfold fifoDirectoryEntry
    split
    · exact hs
    · exact fifoInv_dispatch hs _

theorem fifoInv_files_foldl {nb_proc : Nat} {env : FifoEnv} :
    ∀ (lines : List String) (s : FifoState), FifoInv nb_proc env s →
      FifoInv nb_proc env (lines.foldl (fifoFilesLine nb_proc env) s) := by
  intro lines
  induction lines with
  | nil => intro s hs; exact hs
  | cons l ls ih =>
    intro s hs
    exact ih _ (fifoInv_dispatch hs _)

/-- Claim C1: in `fifo_process_directory` and in `fifo_process_files`, for every
`nb_proc >= 1`, every source and every sequence of `select` results that report
readable only workers with a pending completion record, the function passes the
parameter check and at no point of its trace has a worker more than one task
outstanding; and every task is written to `command_fifos[i]` either for a fresh
index `i < nb_proc` or right after a record was read from `notify_fifos[i]`. -/
theorem fifo_dispatch_one_task_per_worker (nb_proc : Nat) (hnb : 1 ≤ nb_proc)
    (envd envf : FifoEnv) (entries : List dirent) (lines : List String)
    (hd : SelectSound nb_proc envd (fifoDirectoryLoop nb_proc envd entries).trace)
    (hf : SelectSound nb_proc envf (fifoFilesLoop nb_proc envf lines).trace) :
    (fifo_process_directory nb_proc envd entries = some (fifoDirectoryLoop nb_proc envd entries) ∧
      AtMostOneOutstanding (fifoDirectoryLoop nb_proc envd entries).trace ∧
      SendsJustified nb_proc (fifoDirectoryLoop nb_proc envd entries).trace) ∧
    (fifo_process_files nb_proc envf lines = some (fifoFilesLoop nb_proc envf lines) ∧
      AtMostOneOutstanding (fifoFilesLoop nb_proc envf lines).trace ∧
      SendsJustified nb_proc (fifoFilesLoop nb_proc envf lines).trace) := by
  have h1 := fifoInv_directory_foldl entries _ (fifoInv_init nb_proc envd)
  have h2 := fifoInv_files_foldl lines _ (fifoInv_init nb_proc envf)
  refine ⟨⟨?_, h1.2.2 hd, h1.2.1⟩, ⟨?_, h2.2.2 hf, h2.2.1⟩⟩
  · simp only [fifo_process_directory]
    rw [if_neg (by omega)]
  · simp only [fifo_process_files]
    rw [if_neg (by omega)]

theorem fifo_dispatch_one_task_per_worker_witness :
    (1 ≤ 2 ∧
      SelectSound 2 ⟨fun _ i => i == 0, fun _ => "Task completed"⟩
        (fifoDirectoryLoop 2 ⟨fun _ i => i == 0, fun _ => "Task completed"⟩
          [⟨"a", 4⟩, ⟨".", 4⟩, ⟨"b", 4⟩, ⟨"c", 4⟩]).trace ∧
      SelectSound 2 ⟨fun _ i => i == 1, fun _ => "Task completed"⟩
        (fifoFilesLoop 2 ⟨fun _ i => i == 1, fun _ => "Task completed"⟩
          ["x\n", "y\n", "z\n"]).trace) ∧
    (fifo_process_directory 2 ⟨fun _ i => i == 0, fun _ => "Task completed"⟩
          [⟨"a", 4⟩, ⟨".", 4⟩, ⟨"b", 4⟩, ⟨"c", 4⟩] =
        some (fifoDirectoryLoop 2 ⟨fun _ i => i == 0, fun _ => "Task completed"⟩
          [⟨"a", 4⟩, ⟨".", 4⟩, ⟨"b", 4⟩, ⟨"c", 4⟩]) ∧
      AtMostOneOutstanding (fifoDirectoryLoop 2 ⟨fun _ i => i == 0, fun _ => "Task completed"⟩
          [⟨"a", 4⟩, ⟨".", 4⟩, ⟨"b", 4⟩, ⟨"c", 4⟩]).trace ∧
      SendsJustified 2 (fifoDirectoryLoop 2 ⟨fun _ i => i == 0, fun _ => "Task completed"⟩
          [⟨"a", 4⟩, ⟨".", 4⟩, ⟨"b", 4⟩, ⟨"c", 4⟩]).trace) ∧
    (fifo_process_files 2 ⟨fun _ i => i == 1, fun _ => "Task completed"⟩
          ["x\n", "y\n", "z\n"] =
        some (fifoFilesLoop 2 ⟨fun _ i => i == 1, fun _ => "Task completed"⟩
          ["x\n", "y\n", "z\n"]) ∧
      AtMostOneOutstanding (fifoFilesLoop 2 ⟨fun _ i => i == 1, fun _ => "Task completed"⟩
          ["x\n", "y\n", "z\n"]).trace ∧
      SendsJustified 2 (fifoFilesLoop 2 ⟨fun _ i => i == 1, fun _ => "Task completed"⟩
          ["x\n", "y\n", "z\n"]).trace) :=
  ⟨⟨by decide, by unfold SelectSound; decide, by unfold SelectSound; decide⟩,
    fifo_dispatch_one_task_per_worker 2 (by decide)
      ⟨fun _ i => i == 0, fun _ => "Task completed"⟩
      ⟨fun _ i => i == 1, fun _ => "Task completed"⟩
      [⟨"a", 4⟩, ⟨".", 4⟩, ⟨"b", 4⟩, ⟨"c", 4⟩] ["x\n", "y\n", "z\n"]
      (by unfold SelectSound; decide) (by unfold SelectSound; decide)⟩

theorem sentNames_append (t u : List FifoEvent) :
    sentNames (t ++ u) = sentNames t ++ sentNames u := by
  induction t with
  | nil => rfl
  | cons e es ih =>
    cases e <;> simp [sentNames, ih]

theorem sentNames_dispatch {nb_proc : Nat} {env : FifoEnv}
    (hsel : ∀ k, ∃ i, i < nb_proc ∧ env.select k i = true)
    (hnote : ∀ k, env.notification k = "Task completed") (s : FifoState) (name : String) :
    sentNames (fifoDispatch nb_proc env s name).trace = sentNames s.trace ++ [name] := by
  unfold fifoDispatch
  split
  · simp [sentNames_append, sentNames]
  · split
    · rename_i hnone
      obtain ⟨i, hi, hsi⟩ := hsel s.select_calls
      rw [List.find?_eq_none] at hnone
      exact absurd hsi (hnone i (List.mem_range.mpr hi))
    · simp [sentNames_append, sentNames, hnote]

theorem sentNames_directory_foldl {nb_proc : Nat} {env : FifoEnv}
    (hsel : ∀ k, ∃ i, i < nb_proc ∧ env.select k i = true)
    (hnote : ∀ k, env.notification k = "Task completed") :
    ∀ (entries : List dirent) (s : FifoState),
      sentNames (entries.foldl (fifoDirectoryEntry nb_proc env) s).trace =
        sentNames s.trace ++ (entries.filter (fun e => !isDotEntry e)).map dirent.d_name := by
  intro entries
  induction entries with
  | nil => intro s; simp
  | cons e es ih =>
    intro s
    rw [List.foldl_cons, ih]
    unfold fifoDirectoryEntry
    by_cases hdot : isDotEntry e = true
    · simp [hdot]
    · simp [hdot, sentNames_dispatch hsel hnote]

/-- Claim C4 fails as stated: with `nb_proc = 1`, entries `a`, `b` (none is `.` or
`..`), a `select` that reports worker 0 and a record that reads `"Task failed"`,
`fifo_process_directory` passes only `a` to `send_task`; entry `b` is dropped. -/
theorem fifo_directory_entry_dropped :
    (∀ e, e ∈ [(⟨"a", 4⟩ : dirent), ⟨"b", 4⟩] → isDotEntry e = false) ∧
    sentNames (fifoDirectoryLoop 1 ⟨fun _ i => i == 0, fun _ => "Task failed"⟩
      [⟨"a", 4⟩, ⟨"b", 4⟩]).trace = ["a"] ∧
    sentNames (fifoDirectoryLoop 1 ⟨fun _ i => i == 0, fun _ => "Task failed"⟩
      [⟨"a", 4⟩, ⟨"b", 4⟩]).trace ≠ [(⟨"a", 4⟩ : dirent), ⟨"b", 4⟩].map dirent.d_name := by
  decide

/-- Claim C4, amended: for every `nb_proc >= 1` and every sequence of entries,
when each `select` reports one of the `nb_proc` notify FIFOs readable and every
record read is `"Task completed"`, the names `fifo_process_directory` passes to
`send_task` are the entries other than `.` and `..`, each once, in source
order. -/
theorem fifo_directory_sends_source_in_order (nb_proc : Nat) (hnb : 1 ≤ nb_proc) (env : FifoEnv)
    (entries : List dirent)
    (hsel : ∀ k, ∃ i, i < nb_proc ∧ env.select k i = true)
    (hnote : ∀ k, env.notification k = "Task completed") :
    fifo_process_directory nb_proc env entries = some (fifoDirectoryLoop nb_proc env entries) ∧
    sentNames (fifoDirectoryLoop nb_proc env entries).trace =
      (entries.filter (fun e => !isDotEntry e)).map dirent.d_name := by
  constructor
  · simp only [fifo_process_directory]
    rw [if_neg (by omega)]
  · simpa [fifoDirectoryLoop, FifoState.init, sentNames] using
      sentNames_directory_foldl hsel hnote entries FifoState.init

theorem fifo_directory_sends_source_in_order_witness :
    sentNames (fifoDirectoryLoop 2 ⟨fun k i => i == k % 2, fun _ => "Task completed"⟩
      [⟨"a", 4⟩, ⟨".", 4⟩, ⟨"b", 4⟩, ⟨"..", 4⟩, ⟨"c", 8⟩, ⟨"d", 4⟩]).trace = ["a", "b", "c", "d"] :=
  (fifo_directory_sends_source_in_order 2 (by decide)
    ⟨fun k i => i == k % 2, fun _ => "Task completed"⟩
    [⟨"a", 4⟩, ⟨".", 4⟩, ⟨"b", 4⟩, ⟨"..", 4⟩, ⟨"c", 8⟩, ⟨"d", 4⟩]
    (fun k => ⟨k % 2, Nat.mod_lt k (by decide), by simp⟩) (fun _ => rfl)).2

/-- Claim C6, failing run: with `nb_proc = 1` and a single item `a`, both
`fifo_process_directory` and `fifo_process_files` return after one send and no
read of a completion record: the task is still in flight. -/
theorem fifo_returns_with_task_in_flight (env : FifoEnv) :
    (fifo_process_directory 1 env [⟨"a", 4⟩] =
        some { completed_tasks := 1, select_calls := 0, read_calls := 0,
               trace := [FifoEvent.send 0 "a"] } ∧
      (fifoDirectoryLoop 1 env [⟨"a", 4⟩]).trace.countP FifoEvent.isSend = 1 ∧
      (fifoDirectoryLoop 1 env [⟨"a", 4⟩]).trace.countP FifoEvent.isRead = 0) ∧
    (fifo_process_files 1 env ["a\n"] =
        some { completed_tasks := 1, select_calls := 0, read_calls := 0,
               trace := [FifoEvent.send 0 "a"] } ∧
      (fifoFilesLoop 1 env ["a\n"]).trace.countP FifoEvent.isSend = 1 ∧
      (fifoFilesLoop 1 env ["a\n"]).trace.countP FifoEvent.isRead = 0) := by
  refine ⟨⟨?_, ?_, ?_⟩, ⟨?_, ?_, ?_⟩⟩ <;> rfl


/-! ## `mq_processes.c` : runs of the dispatcher -/

/-- Claim C3, failing run: with `process_count = 1` and two directories, the fill
loop of `mq_process_directory` sends two tasks before any receive and the second
one reads `children[1]`, outside `0..0`; the function then returns without a
receive.  The fill loop of `mq_process_files` does the same on two lines. -/
theorem mq_fill_overruns_pool :
    (mqFill 1 [⟨"a", 4⟩, ⟨"b", 4⟩]).trace =
        [MqEvent.send 0 (some "a"), MqEvent.send 1 (some "b")] ∧
    mq_process_directory 1 [⟨"a", 4⟩, ⟨"b", 4⟩] =
        { running_workers := -1, tasks_left := -1,
          trace := [MqEvent.send 0 (some "a"), MqEvent.send 1 (some "b")] } ∧
    (mqFilesFill 1 ["x\n", "y\n"]).trace =
        [MqEvent.send 0 (some "x"), MqEvent.send 1 (some "y")] := by
  decide

/-- Claim C5, failing run: with `process_count = 3` and one directory, after
`readdir` has returned `NULL` and one message was received,
`mq_process_directory` calls `send_task_to_mq` a second time (two calls for
`M = 1`), with the null directory entry and `children[2]`; the process dies in
that call, before `msgsnd`, with one task sent, and the function does not
return. -/
theorem mq_sends_after_source_exhausted :
    mq_process_directory 3 [⟨"a", 4⟩] =
        { running_workers := 1, tasks_left := 1, crashed := true,
          trace := [MqEvent.send 0 (some "a"), MqEvent.recv, MqEvent.nullDirent 2] } ∧
    (mq_process_directory 3 [⟨"a", 4⟩]).trace.countP MqEvent.isSendCall = 2 ∧
    (mq_process_directory 3 [⟨"a", 4⟩]).trace.countP MqEvent.isSend = 1 ∧
    (mq_process_directory 3 [⟨"a", 4⟩]).crashed = true := by
  decide

/-- Claim C8, failing run: with `process_count = 1` and one directory,
`mq_process_directory` returns after one send and no receive; with
`process_count = 3` and two directories it returns after two sends and one
receive. -/
theorem mq_returns_with_task_in_flight :
    mq_process_directory 1 [⟨"a", 4⟩] =
        { running_workers := 0, tasks_left := 0, trace := [MqEvent.send 0 (some "a")] } ∧
    (mq_process_directory 1 [⟨"a", 4⟩]).trace.countP MqEvent.isSend = 1 ∧
    (mq_process_directory 1 [⟨"a", 4⟩]).trace.countP MqEvent.isRecv = 0 ∧
    (mq_process_directory 3 [⟨"a", 4⟩, ⟨"b", 4⟩]).trace =
        [MqEvent.send 0 (some "a"), MqEvent.send 1 (some "b"), MqEvent.recv] := by
  decide


/-! ## Worker loop of `make_processes` -/

theorem workerLoop_events (tasks : List task_t) :
    (workerLoop tasks).1 =
      ((tasks.takeWhile fun t => t.task_callback.isSome).map fun t =>
        [WorkerEvent.invoke t, WorkerEvent.write taskCompletedRecord]).flatten := by
  induction tasks with
  | nil => rfl
  | cons t ts ih =>
    unfold workerLoop
    cases h : t.task_callback with
    | none => simp [h]
    | some f => simp [h, ih]

theorem workerLoop_status (tasks : List task_t) :
    (workerLoop tasks).2 =
      if tasks.all (fun t => t.task_callback.isSome) = true then WorkerStatus.waiting
      else WorkerStatus.exited := by
  induction tasks with
  | nil => rfl
  | cons t ts ih =>
    unfold workerLoop
    cases h : t.task_callback with
    | none => simp [h]
    | some f => simp [h, ih]

/-- Claim C10: over any sequence of task records read, the worker loop of
`make_processes` invokes the callback of each task before the first one with a
`NULL` callback, once and in order, each invocation followed by one write of the
1024-byte record whose C string is `"Task completed"`; it leaves the loop at the
first `NULL`-callback task with nothing invoked or written for it (and waits in
`read` when no such task comes).  The tasks `shutdown_processes` writes have a
`NULL` callback. -/
theorem worker_loop_serves_until_null_callback (tasks : List task_t) :
    workerLoop tasks =
      (((tasks.takeWhile fun t => t.task_callback.isSome).map fun t =>
          [WorkerEvent.invoke t, WorkerEvent.write taskCompletedRecord]).flatten,
        if tasks.all (fun t => t.task_callback.isSome) = true then WorkerStatus.waiting
        else WorkerStatus.exited) ∧
    taskCompletedRecord.length = 1024 ∧
    cString taskCompletedRecord = "Task completed".data.map Char.toNat ∧
    (∀ (n : Nat) (garbage : Nat → String) (w : Nat × task_t),
      w ∈ shutdown_processes n garbage → w.2.task_callback = none) := by
  refine ⟨?_, ?_, ?_, ?_⟩
  · rw [← workerLoop_events, ← workerLoop_status]
  · simp only [taskCompletedRecord, List.length_append, List.length_map, List.length_replicate]
    rfl
  · simp [cString, taskCompletedRecord, List.takeWhile_append]
  · intro n garbage w hw
    simp only [shutdown_processes, List.mem_map] at hw
    obtain ⟨i, _, hi⟩ := hw
    rw [← hi]

/-! ## Message-queue worker, receives, task records, configuration, files steps -/

theorem child_process_never_left (messages : List mq_message_t) :
    (child_process messages).2 ≠ ChildStatus.left := by
  induction messages with
  | nil => simp [child_process]
  | cons m later ih =>
    unfold child_process
    cases h : m.mtext.task_callback with
    | none => simp [mtextPointerIsNull, h]
    | some f => simpa [mtextPointerIsNull, h] using ih

/-- Claim C11, failing run: on the sentinel of `close_processes` (callback `NULL`)
`child_process` does not leave its loop through `break`: its test is on the
pointer to the message text, which is never `NULL`, so it calls the `NULL`
callback.  The same after a served task; and no run of `child_process` ever
ends through the `break`. -/
theorem child_process_calls_null_callback :
    child_process (close_processes [100]) =
      ([MqWorkerEvent.invoke { task_callback := none, argv := "" }], ChildStatus.nullCall) ∧
    child_process ({ mtype := 100, mtext := { task_callback := some 7, argv := "a" } } ::
        close_processes [100]) =
      ([MqWorkerEvent.invoke { task_callback := some 7, argv := "a" },
        MqWorkerEvent.msgsnd { mtype := 1, mtext := { task_callback := some 7, argv := "a" } },
        MqWorkerEvent.invoke { task_callback := none, argv := "" }], ChildStatus.nullCall) ∧
    (∀ messages : List mq_message_t, (child_process messages).2 ≠ ChildStatus.left) :=
  ⟨by decide, by decide, child_process_never_left⟩

/-- Claim C12, failing run: a worker of PID 100 that calls `msgrcv` dequeues a task
sent with topic 200, and dequeues a completion message (topic 1); the receive
of the dispatcher returns a task message.  Both receives pass `msgtyp = 0`, so
each takes the first message of the queue whatever its topic. -/
theorem mq_receive_ignores_addressee :
    childReceive 100 (msgsnd [] { mtype := 200, mtext := { task_callback := some 7, argv := "a" } }) =
      some ({ mtype := 200, mtext := { task_callback := some 7, argv := "a" } }, []) ∧
    childReceive 100 [{ mtype := 1, mtext := { task_callback := some 7, argv := "a" } }] =
      some ({ mtype := 1, mtext := { task_callback := some 7, argv := "a" } }, []) ∧
    dispatcherReceive [{ mtype := 200, mtext := { task_callback := some 7, argv := "a" } }] =
      some ({ mtype := 200, mtext := { task_callback := some 7, argv := "a" } }, []) ∧
    (∀ (pid : Int) (m : mq_message_t) (later : List mq_message_t),
      childReceive pid (m :: later) = some (m, later) ∧
      dispatcherReceive (m :: later) = some (m, later)) := by
  refine ⟨by decide, by decide, by decide, ?_⟩
  intro pid m later
  simp [childReceive, dispatcherReceive, msgrcv]

/-- Claim C14, failing input: for `data_source = "data"`, `temp_files = "tmp"`,
`target_dir = "a"`, `send_task_to_mq` sends the callback `parse_dir` and the
object directory `a`, where `send_task` builds `process_directory` and
`data/a`; the two records differ for all arguments. -/
theorem mq_task_record_differs :
    send_task_to_mq "data" "tmp" "a" =
      { task_callback := WorkFunction.parse_dir, object_directory := "a",
        temporary_directory := "tmp" } ∧
    send_task 1024 "data" "tmp" "a" =
      { task_callback := WorkFunction.process_directory, object_directory := "data/a",
        temporary_directory := "tmp" } ∧
    (∀ (STR_MAX_LEN : Nat) (data_source temp_files target_dir : String),
      send_task_to_mq data_source temp_files target_dir ≠
        send_task STR_MAX_LEN data_source temp_files target_dir) := by
  refine ⟨by decide, by decide, ?_⟩
  intro L ds tf td h
  have := congrArg directory_task_t.task_callback h
  simp [send_task_to_mq, send_task] at this

/-- Claim C17, failing inputs: with `/data`, `/tmp` and `/out` directories and no
`/out/result`, `is_configuration_valid` returns false for the output file
`/out/result`; with `/data` a regular file and `/out/result` an existing regular
file it returns true.  In general it returns true exactly when the data path
and the temporary directory name something and the output file itself is an
existing regular file. -/
theorem configuration_valid_needs_output_file :
    is_configuration_valid
        (fun p => if p = "/data" ∨ p = "/tmp" ∨ p = "/out" then some FileKind.directory else none)
        { data_path := "/data", temporary_directory := "/tmp", output_file := "/out/result",
          is_verbose := false, cpu_core_multiplier := 1, process_count := 2 } = false ∧
    is_configuration_valid
        (fun p => if p = "/data" ∨ p = "/out/result" then some FileKind.regular
          else if p = "/tmp" ∨ p = "/out" then some FileKind.directory else none)
        { data_path := "/data", temporary_directory := "/tmp", output_file := "/out/result",
          is_verbose := false, cpu_core_multiplier := 1, process_count := 2 } = true ∧
    (∀ (fs : String → Option FileKind) (c : configuration_t),
      is_configuration_valid fs c = true ↔
        (fs c.data_path).isSome = true ∧ (fs c.temporary_directory).isSome = true ∧
          fs c.output_file = some FileKind.regular) := by
  refine ⟨by decide, by decide, ?_⟩
  intro fs c
  simp [is_configuration_valid, directory_exists, path_to_file_exists, and_assoc]

/-- Claim C18: on receipt of a message in the steady-state loop,
`mq_process_directory` decrements `running_workers` and `mq_process_files`
increments it (both decrement `tasks_left`); over a whole loop body the first
one lowers the counter (a body that finds `running_workers > 0` after the
receipt ends in the call made with the null directory entry) and the second one
never does, so the two bodies are not the same transition. -/
theorem mq_steady_loops_move_counter_apart (process_count : Nat) (file_path : Option String)
    (s : MqState) :
    ((mqSteadyReceive s).running_workers = s.running_workers - 1 ∧
      (mqFilesSteadyReceive s).running_workers = s.running_workers + 1 ∧
      (mqSteadyReceive s).tasks_left = s.tasks_left - 1 ∧
      (mqFilesSteadyReceive s).tasks_left = s.tasks_left - 1) ∧
    (mqSteadyBody process_count s =
        (if (mqSteadyReceive s).running_workers > 0 then
          { mqSteadyReceive s with
            crashed := true
            trace := (mqSteadyReceive s).trace ++
              [MqEvent.nullDirent
                ((process_count : Int) - (mqSteadyReceive s).running_workers)] }
        else mqSteadyReceive s)) ∧
    (mqSteadyBody process_count s).running_workers < s.running_workers ∧
    s.running_workers ≤ (mqFilesSteadyBody process_count file_path s).running_workers ∧
    (mqSteadyBody process_count s).running_workers ≠
      (mqFilesSteadyBody process_count file_path s).running_workers := by
  have h1 : (mqSteadyBody process_count s).running_workers < s.running_workers := by
    simp only [mqSteadyBody, mqSteadyReceive]
    split
    · simp only []
      omega
    · simp only []
      omega
  have h2 : s.running_workers ≤ (mqFilesSteadyBody process_count file_path s).running_workers := by
    simp only [mqFilesSteadyBody, mqFilesSteadyReceive]
    split <;> simp
  refine ⟨⟨rfl, rfl, rfl, rfl⟩, rfl, h1, h2, by omega⟩

theorem direct_fork_files_trace (temp_files : String) (lines : List String)
    (s : DirectFilesState) :
    (lines.foldl (directForkFilesLine temp_files) s).running_processes = s.running_processes ∧
    (lines.foldl (directForkFilesLine temp_files) s).trace =
      s.trace ++ lines.map fun file => DirectFilesEvent.parentCall
        { task_callback := WorkFunction.process_file
          object_file := dropLastChar file
          temporary_directory := temp_files } := by
  induction lines generalizing s with
  | nil => simp
  | cons l ls ih =>
    rw [List.foldl_cons]
    obtain ⟨h1, h2⟩ := ih (directForkFilesLine temp_files s l)
    rw [h1, h2]
    simp [directForkFilesLine]

/-- Claim C19, failing run: with `nb_proc = 2` and two lines, `direct_fork_files`
calls the work function twice in the parent and never forks; for all arguments
it makes no call of `fork`, and with `nb_proc >= 1` one call of the work
function in the parent per line. -/
theorem direct_fork_files_runs_in_parent :
    direct_fork_files "tmp" 2 ["m1\n", "m2\n"] =
      { running_processes := 0
        trace := [DirectFilesEvent.parentCall
            { task_callback := WorkFunction.process_file, object_file := "m1",
              temporary_directory := "tmp" },
          DirectFilesEvent.parentCall
            { task_callback := WorkFunction.process_file, object_file := "m2",
              temporary_directory := "tmp" }] } ∧
    (∀ (temp_files : String) (nb_proc : Nat) (lines : List String),
      (direct_fork_files temp_files nb_proc lines).trace.countP DirectFilesEvent.isFork = 0 ∧
      (direct_fork_files temp_files (nb_proc + 1) lines).trace.countP
        DirectFilesEvent.isParentCall = lines.length) := by
  refine ⟨by decide, ?_⟩
  intro temp_files nb_proc lines
  have h := direct_fork_files_trace temp_files lines { running_processes := 0, trace := [] }
  have hd : ∀ nb, nb ≠ 0 → direct_fork_files temp_files nb lines =
      lines.foldl (directForkFilesLine temp_files) { running_processes := 0, trace := [] } := by
    intro nb hnb
    simp only [direct_fork_files, if_neg hnb, h.1]
    rfl
  constructor
  · by_cases hnb : nb_proc = 0
    · simp [direct_fork_files, hnb]
    · rw [hd nb_proc hnb, h.2]
      simp [List.countP_eq_zero, DirectFilesEvent.isFork]
  · rw [hd (nb_proc + 1) (by omega), h.2]
    simp [List.countP_map, DirectFilesEvent.isParentCall, Function.comp_def]

theorem mqFilesSteadyLoop_stuck (file_path : Option String) (fuel : Nat) :
    ∀ tr : List MqEvent,
      mqFilesSteadyLoop 3 file_path fuel { running_workers := 1, tasks_left := 1, trace := tr } =
        none := by
  induction fuel with
  | zero => intro tr; simp [mqFilesSteadyLoop]
  | succ n ih =>
    intro tr
    simp only [mqFilesSteadyLoop, mqFilesSteadyBody, mqFilesSteadyReceive]
    simp
    exact ih _

theorem mqFilesSteadyBody_iterate (file_path : Option String) (n : Nat) :
    ∀ tr : List MqEvent,
      ((mqFilesSteadyBody 3 file_path)^[n]
          { running_workers := 1, tasks_left := 1, trace := tr }).tasks_left = 1 ∧
      ((mqFilesSteadyBody 3 file_path)^[n]
          { running_workers := 1, tasks_left := 1, trace := tr }).trace.countP MqEvent.isSend =
        tr.countP MqEvent.isSend + n := by
  induction n with
  | zero => intro tr; simp
  | succ n ih =>
    intro tr
    rw [Function.iterate_succ_apply]
    have hb : mqFilesSteadyBody 3 file_path { running_workers := 1, tasks_left := 1, trace := tr } =
        { running_workers := 1, tasks_left := 1,
          trace := tr ++ [MqEvent.recv] ++ [MqEvent.send 1 file_path] } := by
      simp [mqFilesSteadyBody, mqFilesSteadyReceive]
    rw [hb]
    obtain ⟨h1, h2⟩ := ih (tr ++ [MqEvent.recv] ++ [MqEvent.send 1 file_path])
    refine ⟨h1, ?_⟩
    rw [h2]
    simp [List.countP_append, List.countP_cons, MqEvent.isSend]
    omega

/-- Claim C20, failing run: with `process_count = 3` and two lines, step 3 of
`mq_process_files` starts with `running_workers = tasks_left = 1`, one loop body
receives, sends a task and comes back to the same counters; so the function
does not return whatever the number of iterations allowed, and after `n`
iterations the loop condition still holds and `2 + n` tasks have been sent. -/
theorem mq_process_files_steady_loop_diverges :
    mqFilesSteadyStart 3 ["x\n", "y\n"] =
      { running_workers := 1, tasks_left := 1,
        trace := [MqEvent.send 0 (some "x"), MqEvent.send 1 (some "y")] } ∧
    mqFilesSteadyBody 3 (some "y") (mqFilesSteadyStart 3 ["x\n", "y\n"]) =
      { running_workers := 1, tasks_left := 1,
        trace := [MqEvent.send 0 (some "x"), MqEvent.send 1 (some "y"), MqEvent.recv,
          MqEvent.send 1 (some "y")] } ∧
    (∀ fuel : Nat, mq_process_files 3 ["x\n", "y\n"] fuel = none) ∧
    (∀ n : Nat,
      ((mqFilesSteadyBody 3 (lastFilePath ["x\n", "y\n"]))^[n]
          (mqFilesSteadyStart 3 ["x\n", "y\n"])).tasks_left > 0 ∧
      ((mqFilesSteadyBody 3 (lastFilePath ["x\n", "y\n"]))^[n]
          (mqFilesSteadyStart 3 ["x\n", "y\n"])).trace.countP MqEvent.isSend = 2 + n) := by
  have hstart : mqFilesSteadyStart 3 ["x\n", "y\n"] =
      { running_workers := 1, tasks_left := 1,
        trace := [MqEvent.send 0 (some "x"), MqEvent.send 1 (some "y")] } := by decide
  refine ⟨hstart, by decide, ?_, ?_⟩
  · intro fuel
    simp only [mq_process_files, hstart, mqFilesSteadyLoop_stuck]
  · intro n
    rw [hstart]
    obtain ⟨h1, h2⟩ := mqFilesSteadyBody_iterate (lastFilePath ["x\n", "y\n"]) n
      [MqEvent.send 0 (some "x"), MqEvent.send 1 (some "y")]
    rw [h1, h2]
    exact ⟨by decide, by simp [MqEvent.isSend]⟩

/-! ## Creation and removal of the FIFOs -/

theorem make_fifos_succ (n : Nat) (expand : Nat → String) (s : FifoNames) :
    make_fifos (n + 1) expand s =
      (make_fifos n expand s).bind fun st => mkfifo st (expand n) := by
  simp only [make_fifos, List.range_succ, List.foldlM_append]
  cases (List.range n).foldlM (fun st i => mkfifo st (expand i)) s <;> simp

theorem erase_fifos_succ (n : Nat) (expand : Nat → String) (s : FifoNames) :
    erase_fifos (n + 1) expand s =
      (erase_fifos n expand s).bind fun st => unlink st (expand n) := by
  simp only [erase_fifos, List.range_succ, List.foldlM_append]
  cases (List.range n).foldlM (fun st i => unlink st (expand i)) s <;> simp

theorem make_fifos_ok (N : Nat) (expand : Nat → String) (s : FifoNames)
    (hinj : ∀ i, i < N → ∀ j, j < N → expand i = expand j → i = j)
    (hfree : ∀ i, i < N → expand i ∉ s.present) :
    ∀ n, n ≤ N → ∃ s1, make_fifos n expand s = some s1 ∧
      s1.present = s.present ∪ ((List.range n).map expand).toFinset ∧
      s1.created = s.created ++ (List.range n).map expand ∧ s1.removed = s.removed := by
  intro n
  induction n with
  | zero =>
    intro _
    exact ⟨s, by simp [make_fifos], by simp, by simp, rfl⟩
  | succ n ih =>
    intro hn
    obtain ⟨s1, h1, hp, hc, hr⟩ := ih (by omega)
    have hnot : expand n ∉ s1.present := by
      rw [hp]
      simp only [Finset.mem_union, List.mem_toFinset, List.mem_map, List.mem_range, not_or,
        not_exists, not_and]
      refine ⟨hfree n (by omega), ?_⟩
      intro i hi heq
      have := hinj i (by omega) n (by omega) heq
      omega
    refine ⟨{ s1 with present := insert (expand n) s1.present,
                      created := s1.created ++ [expand n] }, ?_, ?_, ?_, ?_⟩
    · rw [make_fifos_succ, h1]
      simp [mkfifo, hnot]
    · simp only [hp, List.range_succ, List.map_append, List.map_cons, List.map_nil,
        List.toFinset_append]
      ext x
      simp only [Finset.mem_insert, Finset.mem_union, List.mem_toFinset, List.mem_singleton]
      tauto
    · simp [hc, List.range_succ]
    · exact hr

theorem erase_fifos_ok (N : Nat) (expand : Nat → String) (s : FifoNames)
    (hinj : ∀ i, i < N → ∀ j, j < N → expand i = expand j → i = j)
    (hin : ∀ i, i < N → expand i ∈ s.present) :
    ∀ n, n ≤ N → ∃ s2, erase_fifos n expand s = some s2 ∧
      s2.present = s.present \ ((List.range n).map expand).toFinset ∧
      s2.removed = s.removed ++ (List.range n).map expand ∧ s2.created = s.created := by
  intro n
  induction n with
  | zero =>
    intro _
    exact ⟨s, by simp [erase_fifos], by simp, by simp, rfl⟩
  | succ n ih =>
    intro hn
    obtain ⟨s2, h1, hp, hr, hc⟩ := ih (by omega)
    have hmem : expand n ∈ s2.present := by
      rw [hp]
      simp only [Finset.mem_sdiff, List.mem_toFinset, List.mem_map, List.mem_range, not_exists,
        not_and]
      refine ⟨hin n (by omega), ?_⟩
      intro i hi heq
      have := hinj i (by omega) n (by omega) heq
      omega
    refine ⟨{ s2 with present := s2.present.erase (expand n),
                      removed := s2.removed ++ [expand n] }, ?_, ?_, ?_, ?_⟩
    · rw [erase_fifos_succ, h1]
      simp [unlink, hmem]
    · simp only [hp, List.range_succ, List.map_append, List.map_cons, List.map_nil,
        List.toFinset_append]
      ext x
      simp only [Finset.mem_erase, Finset.mem_sdiff, Finset.mem_union, List.mem_toFinset,
        List.mem_singleton]
      tauto
    · simp [hr, List.range_succ]
    · exact hc

/-- Claim C16: for every `processes_count` and every expansion of the format that
is injective on the indices below it, on a directory that holds none of the
expanded names `make_fifos` succeeds and creates exactly these names, and
`erase_fifos` then succeeds, removes exactly the names created, each once, and
leaves the names the directory held before. -/
theorem make_then_erase_fifos_restores (N : Nat) (expand : Nat → String) (names : Finset String)
    (hinj : ∀ i, i < N → ∀ j, j < N → expand i = expand j → i = j)
    (hfree : ∀ i, i < N → expand i ∉ names) :
    ∃ s1 s2, make_fifos N expand { present := names, created := [], removed := [] } = some s1 ∧
      erase_fifos N expand s1 = some s2 ∧
      s1.created = (List.range N).map expand ∧ s1.removed = [] ∧
      s1.present = names ∪ ((List.range N).map expand).toFinset ∧
      s2.removed = s1.created ∧ s2.removed.Nodup ∧ s2.present = names := by
  obtain ⟨s1, h1, hp1, hc1, hr1⟩ :=
    make_fifos_ok N expand { present := names, created := [], removed := [] } hinj hfree N
      (le_refl _)
  have hin : ∀ i, i < N → expand i ∈ s1.present := by
    intro i hi
    rw [hp1]
    simp only [Finset.mem_union, List.mem_toFinset, List.mem_map, List.mem_range]
    exact Or.inr ⟨i, hi, rfl⟩
  obtain ⟨s2, h2, hp2, hr2, hc2⟩ := erase_fifos_ok N expand s1 hinj hin N (le_refl _)
  have hnodup : ((List.range N).map expand).Nodup := by
    rw [List.nodup_map_iff_inj_on (List.nodup_range N)]
    intro i hi j hj heq
    exact hinj i (List.mem_range.mp hi) j (List.mem_range.mp hj) heq
  simp only [List.nil_append] at hc1 hr1
  refine ⟨s1, s2, h1, h2, hc1, hr1, hp1, ?_, ?_, ?_⟩
  · rw [hr2, hr1, hc1]; simp
  · rw [hr2, hr1]; simpa using hnodup
  · rw [hp2, hp1]
    ext x
    simp only [Finset.mem_sdiff, Finset.mem_union, List.mem_toFinset, List.mem_map,
      List.mem_range]
    constructor
    · rintro ⟨h | h, hn⟩
      · exact h
      · exact absurd h hn
    · intro hx
      refine ⟨Or.inl hx, ?_⟩
      rintro ⟨i, hi, rfl⟩
      exact hfree i hi hx

theorem make_then_erase_fifos_restores_witness :
    (∀ i, i < 2 → ∀ j, j < 2 →
      (fun i => if i = 0 then "fifo-in-0" else "fifo-in-1") i =
        (fun i => if i = 0 then "fifo-in-0" else "fifo-in-1") j → i = j) ∧
    (∀ i, i < 2 → (fun i => if i = 0 then "fifo-in-0" else "fifo-in-1") i ∉
      ({"step1_output"} : Finset String)) ∧
    ∃ s1 s2, make_fifos 2 (fun i => if i = 0 then "fifo-in-0" else "fifo-in-1")
        { present := {"step1_output"}, created := [], removed := [] } = some s1 ∧
      erase_fifos 2 (fun i => if i = 0 then "fifo-in-0" else "fifo-in-1") s1 = some s2 ∧
      s1.created = (List.range 2).map (fun i => if i = 0 then "fifo-in-0" else "fifo-in-1") ∧
      s1.removed = [] ∧
      s1.present = {"step1_output"} ∪
        ((List.range 2).map (fun i => if i = 0 then "fifo-in-0" else "fifo-in-1")).toFinset ∧
      s2.removed = s1.created ∧ s2.removed.Nodup ∧ s2.present = {"step1_output"} :=
  ⟨by decide, by decide,
    make_then_erase_fifos_restores 2 (fun i => if i = 0 then "fifo-in-0" else "fifo-in-1")
      {"step1_output"} (by decide) (by decide)⟩

/-! ## Names issued by the three dispatchers, output paths -/

theorem basenameChars_of_join (d n : List Char) (hn : n ≠ []) (hs : '/' ∉ n) :
    basenameChars (d ++ '/' :: n) = n := by
  have hrev : (d ++ '/' :: n).reverse = n.reverse ++ '/' :: d.reverse := by simp
  have hall : ∀ c, c ∈ n.reverse → (c != '/') = true := by
    intro c hc
    have hc' : c ∈ n := List.mem_reverse.mp hc
    simp only [bne_iff_ne, ne_eq]
    intro h
    exact hs (h ▸ hc')
  obtain ⟨x, xs, hx⟩ : ∃ x xs, n.reverse = x :: xs := by
    cases h : n.reverse with
    | nil => exact absurd (List.reverse_eq_nil_iff.mp h) hn
    | cons x xs => exact ⟨x, xs, rfl⟩
  have hxne : ¬ ((x == '/') = true) := by
    have := hall x (by rw [hx]; simp)
    simpa using this
  unfold basenameChars
  rw [if_neg (by simp)]
  simp only [hrev]
  have hdrop : (n.reverse ++ '/' :: d.reverse).dropWhile (fun c => c == '/') =
      n.reverse ++ '/' :: d.reverse := by
    rw [hx]
    simp [List.dropWhile_cons, hxne]
  rw [hdrop, if_neg (by rw [hx]; simp)]
  rw [List.takeWhile_append_of_pos hall]
  simp

theorem processDirectoryOutput_send_task (L : Nat) (data_source temp_files name : String)
    (hn : name.data ≠ []) (hs : '/' ∉ name.data)
    (hfit : data_source.length + 1 + name.length < L)
    (hout : temp_files.length + 1 + name.length < 255) :
    processDirectoryOutput (send_task L data_source temp_files name) =
      String.mk (temp_files.data ++ '/' :: name.data) := by
  obtain ⟨ds⟩ := data_source
  obtain ⟨tf⟩ := temp_files
  obtain ⟨nm⟩ := name
  change ds.length + 1 + nm.length < L at hfit
  change tf.length + 1 + nm.length < 255 at hout
  have hl1 : (ds ++ '/' :: nm).length ≤ L - 1 := by
    simp only [List.length_append, List.length_cons]
    omega
  have hl2 : (tf ++ '/' :: nm).length ≤ 255 - 1 := by
    simp only [List.length_append, List.length_cons]
    omega
  have h1 : snprintfPath L ⟨ds⟩ ⟨nm⟩ = String.mk (ds ++ '/' :: nm) := by
    simp only [snprintfPath]
    rw [List.take_of_length_le hl1]
  have h2 : basename (String.mk (ds ++ '/' :: nm)) = ⟨nm⟩ := by
    simp only [basename]
    rw [basenameChars_of_join _ _ hn hs]
  simp only [processDirectoryOutput, send_task]
  rw [h1, h2]
  simp only [snprintfPath]
  rw [List.take_of_length_le hl2]

/-- Claim C15 fails as stated: two file tasks with different file paths and the
same temporary directory `tmp` both have the output path `tmp/step2_output`. -/
theorem file_tasks_share_output_path :
    (send_task_file "data" "tmp" "data/a/m1").object_file ≠
      (send_task_file "data" "tmp" "data/a/m2").object_file ∧
    (send_task_file "data" "tmp" "data/a/m1").temporary_directory =
      (send_task_file "data" "tmp" "data/a/m2").temporary_directory ∧
    processFileOutput (send_task_file "data" "tmp" "data/a/m1") = "tmp/step2_output" ∧
    processFileOutput (send_task_file "data" "tmp" "data/a/m2") = "tmp/step2_output" := by
  decide

/-- Claim C15, amended: two directory tasks built by `send_task` for the same data
source and temporary directory and two different entry names (non-empty,
without `/`, short enough for the buffers) make `process_directory` open
different output paths; all file tasks with the same temporary directory make
`process_file` use the same output path. -/
theorem directory_tasks_write_distinct_paths (STR_MAX_LEN : Nat)
    (data_source temp_files name1 name2 : String)
    (hne : name1 ≠ name2)
    (hn1 : name1.data ≠ []) (hs1 : '/' ∉ name1.data)
    (hn2 : name2.data ≠ []) (hs2 : '/' ∉ name2.data)
    (hfit1 : data_source.length + 1 + name1.length < STR_MAX_LEN)
    (hfit2 : data_source.length + 1 + name2.length < STR_MAX_LEN)
    (hout1 : temp_files.length + 1 + name1.length < 255)
    (hout2 : temp_files.length + 1 + name2.length < 255) :
    processDirectoryOutput (send_task STR_MAX_LEN data_source temp_files name1) ≠
      processDirectoryOutput (send_task STR_MAX_LEN data_source temp_files name2) ∧
    (∀ t1 t2 : file_task_t, t1.temporary_directory = t2.temporary_directory →
      processFileOutput t1 = processFileOutput t2) := by
  constructor
  · rw [processDirectoryOutput_send_task STR_MAX_LEN data_source temp_files name1 hn1 hs1 hfit1 hout1,
      processDirectoryOutput_send_task STR_MAX_LEN data_source temp_files name2 hn2 hs2 hfit2 hout2]
    intro h
    have h' := congrArg String.data h
    have h'' : name1.data = name2.data := by simpa using h'
    exact hne (String.ext h'')
  · intro t1 t2 h
    simp [processFileOutput, h]

theorem directory_tasks_write_distinct_paths_witness :
    processDirectoryOutput (send_task 1024 "data" "tmp" "a") = "tmp/a" ∧
    processDirectoryOutput (send_task 1024 "data" "tmp" "b") = "tmp/b" ∧
    (processDirectoryOutput (send_task 1024 "data" "tmp" "a") ≠
        processDirectoryOutput (send_task 1024 "data" "tmp" "b") ∧
      (∀ t1 t2 : file_task_t, t1.temporary_directory = t2.temporary_directory →
        processFileOutput t1 = processFileOutput t2)) :=
  ⟨by decide, by decide,
    directory_tasks_write_distinct_paths 1024 "data" "tmp" "a" "b" (by decide) (by decide)
      (by decide) (by decide) (by decide) (by decide) (by decide) (by decide) (by decide)⟩

/-! ## File lines and configuration lines -/

/-- Claim C21, failing input: for a file list whose last line `m2` has no newline,
`direct_fork_files` and `fifo_process_files` issue the object file `m` (the
statement `file[strlen(file) - 1] = 0` cuts the last character whatever it is)
while `mq_process_files` issues `m2`.  For every non-empty line without a
newline the first two cut a character and the third keeps the line. -/
theorem file_line_without_newline_loses_last_character :
    (direct_fork_files "tmp" 1 ["m1\n", "m2"]).trace =
      [DirectFilesEvent.parentCall
        { task_callback := WorkFunction.process_file, object_file := "m1",
          temporary_directory := "tmp" },
       DirectFilesEvent.parentCall
        { task_callback := WorkFunction.process_file, object_file := "m",
          temporary_directory := "tmp" }] ∧
    sentNames (fifoFilesLoop 2 ⟨fun _ i => i == 0, fun _ => "Task completed"⟩
      ["m1\n", "m2"]).trace = ["m1", "m"] ∧
    (send_task_file "data" "tmp" (dropLastChar "m2")).object_file = "m" ∧
    mqSentNames (mqFilesFill 2 ["m1\n", "m2"]).trace = ["m1", "m2"] ∧
    (send_file_task_to_mq "data" "tmp" (cutAtNewline "m2")).object_file = "m2" ∧
    (∀ line : String, line.data ≠ [] → '\n' ∉ line.data →
      dropLastChar line ≠ line ∧ cutAtNewline line = line) := by
  refine ⟨by decide, by decide, by decide, by decide, by decide, ?_⟩
  intro line hne hnl
  constructor
  · intro h
    have h1 := congrArg (fun s : String => s.data.length) h
    simp only [dropLastChar, List.length_dropLast] at h1
    have h2 : 0 < line.data.length := List.length_pos.mpr hne
    omega
  · simp only [cutAtNewline]
    apply String.ext
    simp only
    rw [List.takeWhile_eq_self_iff]
    intro c hc
    simp only [bne_iff_ne, ne_eq]
    intro hcn
    exact hnl (hcn ▸ hc)

theorem skip_spaces_of_word {c : Char} (t : List Char) (hc : isspace c = false) :
    skip_spaces (c :: t) = c :: t := by
  simp [skip_spaces, List.dropWhile_cons, hc]

theorem skip_spaces_append (ws l : List Char) (h : ∀ c, c ∈ ws → isspace c = true) :
    skip_spaces (ws ++ l) = skip_spaces l := by
  simp only [skip_spaces]
  rw [List.dropWhile_append_of_pos h]

theorem get_word_of_word (w rest : List Char) (hw : w ≠ [])
    (hwc : ∀ c, c ∈ w → isspace c = false ∧ c ≠ '=' ∧ c ≠ '\x00')
    (hrest : rest = [] ∨ ∃ c t, rest = c :: t ∧ isspace c = true) :
    get_word (w ++ rest) = (w, rest) := by
  obtain ⟨a, w', rfl⟩ := List.exists_cons_of_ne_nil hw
  have ha := hwc a (by simp)
  have hskip : skip_spaces (a :: w' ++ rest) = a :: w' ++ rest := by
    rw [List.cons_append]
    exact skip_spaces_of_word _ ha.1
  have hall : ∀ c, c ∈ a :: w' → (!isspace c && c != '\x00') = true := by
    intro c hc
    have := hwc c hc
    simp [this.1, this.2.2]
  have hr1 : rest.takeWhile (fun c => !isspace c && c != '\x00') = [] := by
    rcases hrest with h | ⟨c, t, h, hc⟩
    · simp [h]
    · simp [h, hc]
  have hr2 : rest.dropWhile (fun c => !isspace c && c != '\x00') = rest := by
    rcases hrest with h | ⟨c, t, h, hc⟩
    · simp [h]
    · simp [h, hc]
  simp only [get_word, hskip]
  rw [List.takeWhile_append_of_pos hall, List.dropWhile_append_of_pos hall, hr1, hr2]
  have : (a :: w').dropWhile (fun c => !isspace c && c != '\x00') = [] := by
    rw [List.dropWhile_eq_nil_iff]
    exact hall
  simp [this]

/-- Claim C22 fails as stated: on the line `k=v`, with no white space before the
`=`, `get_word` takes `k=v` for the key, `check_equal` returns `NULL` on what
is left and the line gives no key and value. -/
theorem cfg_line_without_space_before_equal :
    ((∀ c, c ∈ ['k'] → isspace c = false ∧ c ≠ '=') ∧
      (∀ c, c ∈ ['v'] → isspace c = false ∧ c ≠ '=')) ∧
    get_word ['k', '=', 'v'] = (['k', '=', 'v'], []) ∧
    check_equal (get_word ['k', '=', 'v']).2 = none ∧
    cfgLineKeyValue ['k', '=', 'v'] = none ∧
    cfgLineKeyValue ['k', '=', 'v'] ≠ some (['k'], ['v']) := by
  decide

/-- Claim C22, amended: for every key `k` and value `v` that are non-empty and
hold no white space, no `=` and no zero byte, at least one white-space
character before the `=` and any amount (none included) after it, and a line
that ends after `v` or goes on with a white-space character, the calls
`get_word`, `check_equal`, `get_word` of `read_cfg_file` extract `k` and `v`;
and `check_equal` returns `NULL` exactly when the first non-space character is
not `=`. -/
theorem cfg_line_key_value (k v ws1 ws2 rest : List Char) (hk : k ≠ []) (hv : v ≠ [])
    (hkc : ∀ c, c ∈ k → isspace c = false ∧ c ≠ '=' ∧ c ≠ '\x00')
    (hvc : ∀ c, c ∈ v → isspace c = false ∧ c ≠ '=' ∧ c ≠ '\x00')
    (hws1 : ws1 ≠ []) (h1 : ∀ c, c ∈ ws1 → isspace c = true)
    (h2 : ∀ c, c ∈ ws2 → isspace c = true)
    (hrest : rest = [] ∨ ∃ c t, rest = c :: t ∧ isspace c = true) :
    cfgLineKeyValue (k ++ (ws1 ++ ('=' :: (ws2 ++ (v ++ rest))))) = some (k, v) ∧
    (∀ str : List Char, check_equal str = none ↔ (skip_spaces str).head? ≠ some '=') := by
  constructor
  · obtain ⟨w, ws1', rfl⟩ := List.exists_cons_of_ne_nil hws1
    have hw := h1 w (by simp)
    have hg1 : get_word (k ++ (w :: ws1' ++ ('=' :: (ws2 ++ (v ++ rest))))) =
        (k, w :: ws1' ++ ('=' :: (ws2 ++ (v ++ rest)))) :=
      get_word_of_word k _ hk hkc
        (Or.inr ⟨w, ws1' ++ ('=' :: (ws2 ++ (v ++ rest))), rfl, hw⟩)
    obtain ⟨b, v', rfl⟩ := List.exists_cons_of_ne_nil hv
    have hb := hvc b (by simp)
    have hce : check_equal (w :: ws1' ++ ('=' :: (ws2 ++ (b :: v' ++ rest)))) =
        some (b :: v' ++ rest) := by
      simp only [check_equal]
      rw [skip_spaces_append _ _ h1, skip_spaces_of_word _ (by decide)]
      simp only
      rw [skip_spaces_append _ _ h2, List.cons_append, skip_spaces_of_word _ hb.1]
    have hg2 : get_word (b :: v' ++ rest) = (b :: v', rest) :=
      get_word_of_word _ _ (by simp) hvc hrest
    simp only [cfgLineKeyValue, hg1, hce, hg2]
  · intro str
    simp only [check_equal]
    cases h : skip_spaces str with
    | nil => simp
    | cons c t =>
      by_cases hc : c = '='
      · subst hc; simp
      · simp only [List.head?_cons, ne_eq, Option.some.injEq, hc, not_false_eq_true, iff_true]
        split
        · rename_i after heq
          simp only [List.cons.injEq] at heq
          exact absurd heq.1 hc
        · rfl

theorem cfg_line_key_value_witness :
    cfgLineKeyValue ("data_path".data ++ ([' ', '\t'] ++ ('=' :: ([] ++ ("/tmp/x".data ++ ['\n']))))) =
      some ("data_path".data, "/tmp/x".data) ∧
    (∀ str : List Char, check_equal str = none ↔ (skip_spaces str).head? ≠ some '=') :=
  cfg_line_key_value "data_path".data "/tmp/x".data [' ', '\t'] [] ['\n'] (by decide) (by decide)
    (by decide) (by decide) (by decide) (by decide) (by decide)
    (Or.inr ⟨'\n', [], rfl, by decide⟩)

/-! ## `reducers.c` : proofs -/

theorem incrementRecipient_none {recipients : List recipient_t} {email : String} :
    incrementRecipient recipients email = none ↔
      email ∉ recipients.map recipient_t.recipient_address := by
  induction recipients with
  | nil => simp [incrementRecipient]
  | cons x xs ih =>
    simp only [incrementRecipient]
    by_cases hx : x.recipient_address = email
    · simp [hx]
    · have hx' : (x.recipient_address == email) = false := by simpa using hx
      simp only [hx', Bool.false_eq_true, if_false, List.map_cons, List.mem_cons, not_or]
      cases h : incrementRecipient xs email with
      | none =>
        simp only [true_iff]
        exact ⟨fun heq => hx heq.symm, ih.mp h⟩
      | some rest =>
        constructor
        · intro hc
          exact absurd hc (by simp)
        · intro hc
          have := ih.mpr hc.2
          rw [h] at this
          exact absurd this (by simp)

theorem incrementRecipient_some {recipients updated : List recipient_t} {email : String}
    (h : incrementRecipient recipients email = some updated) :
    ∃ pre e post, recipients = pre ++ e :: post ∧ e.recipient_address = email ∧
      (∀ x, x ∈ pre → x.recipient_address ≠ email) ∧
      updated = pre ++ { e with occurrences := (e.occurrences + 1) % 4294967296 } :: post := by
  induction recipients generalizing updated with
  | nil => simp [incrementRecipient] at h
  | cons x xs ih =>
    simp only [incrementRecipient] at h
    by_cases hx : x.recipient_address = email
    · have hx' : (x.recipient_address == email) = true := by simpa using hx
      simp only [hx', if_true, Option.some.injEq] at h
      exact ⟨[], x, xs, rfl, hx, by simp, by simpa using h.symm⟩
    · have hx' : (x.recipient_address == email) = false := by simpa using hx
      simp only [hx', Bool.false_eq_true, if_false] at h
      cases h2 : incrementRecipient xs email with
      | none => simp [h2] at h
      | some rest =>
        simp only [h2, Option.some.injEq] at h
        obtain ⟨pre, e, post, hxs, he, hpre, hrest⟩ := ih h2
        refine ⟨x :: pre, e, post, by simp [hxs], he, ?_, by simp [← h, hrest]⟩
        intro y hy
        rcases List.mem_cons.mp hy with hy | hy
        · rw [hy]; exact hx
        · exact hpre y hy

theorem find_first_recipient {pre post : List recipient_t} {e : recipient_t} {email : String}
    (he : e.recipient_address = email) (hpre : ∀ x, x ∈ pre → x.recipient_address ≠ email) :
    (pre ++ e :: post).find? (fun x => x.recipient_address == email) = some e := by
  induction pre with
  | nil => simp [List.find?_cons, he]
  | cons x xs ih =>
    have hx : (x.recipient_address == email) = false := by
      simpa using hpre x (by simp)
    simp only [List.cons_append, List.find?_cons, hx]
    exact ih (fun y hy => hpre y (List.mem_cons_of_mem _ hy))

/-- Claim C24 fails as stated: on a source whose entry `b` counts `4294967295`
occurrences, the largest value of the `unsigned int` counter,
`add_recipient_to_source` with `b` brings the counter to `0`, so that the sum
of the occurrences falls from `4294967295` to `0` instead of rising by one. -/
theorem add_recipient_to_source_wraps_counter :
    add_recipient_to_source ⟨"a", [⟨"b", 4294967295⟩]⟩ "b" = ⟨"a", [⟨"b", 0⟩]⟩ ∧
    ((add_recipient_to_source ⟨"a", [⟨"b", 4294967295⟩]⟩ "b").recipients.map
        recipient_t.occurrences).sum = 0 ∧
    ((add_recipient_to_source ⟨"a", [⟨"b", 4294967295⟩]⟩ "b").recipients.map
        recipient_t.occurrences).sum ≠
      ((sender_t.mk "a" [⟨"b", 4294967295⟩]).recipients.map recipient_t.occurrences).sum + 1 := by
  decide

/-- Claim C24, amended: for every source in which the first node with the
address, if there is one, counts fewer than `4294967295` occurrences,
`add_recipient_to_source` leaves the sender address; when a node has the address
it increments by one the occurrences of the first such node and changes nothing
else, otherwise it appends a node with `occurrences = 1` at the tail; it keeps
recipient addresses pairwise distinct and raises the sum of the occurrences by
one. -/
theorem add_recipient_to_source_counts_once (source : sender_t) (recipient_email : String)
    (hroom : ∀ e, source.recipients.find? (fun x => x.recipient_address == recipient_email) =
      some e → e.occurrences < 4294967295) :
    (add_recipient_to_source source recipient_email).sender_address = source.sender_address ∧
    (recipient_email ∈ source.recipients.map recipient_t.recipient_address →
      ∃ pre e post, source.recipients = pre ++ e :: post ∧
        e.recipient_address = recipient_email ∧
        (∀ x, x ∈ pre → x.recipient_address ≠ recipient_email) ∧
        (add_recipient_to_source source recipient_email).recipients =
          pre ++ { e with occurrences := e.occurrences + 1 } :: post) ∧
    (recipient_email ∉ source.recipients.map recipient_t.recipient_address →
      (add_recipient_to_source source recipient_email).recipients =
        source.recipients ++ [{ recipient_address := recipient_email, occurrences := 1 }]) ∧
    ((source.recipients.map recipient_t.recipient_address).Nodup →
      ((add_recipient_to_source source recipient_email).recipients.map
        recipient_t.recipient_address).Nodup) ∧
    ((add_recipient_to_source source recipient_email).recipients.map
        recipient_t.occurrences).sum =
      (source.recipients.map recipient_t.occurrences).sum + 1 := by
  cases h : incrementRecipient source.recipients recipient_email with
  | none =>
    have hnot := incrementRecipient_none.mp h
    have hres : (add_recipient_to_source source recipient_email).recipients =
        source.recipients ++ [{ recipient_address := recipient_email, occurrences := 1 }] := by
      simp [add_recipient_to_source, h]
    refine ⟨by simp [add_recipient_to_source, h], fun hin => absurd hin hnot, fun _ => hres, ?_, ?_⟩
    · intro hnd
      rw [hres, List.map_append, List.nodup_append]
      refine ⟨hnd, by simp, ?_⟩
      intro a ha hb
      simp only [List.map_cons, List.map_nil, List.mem_singleton] at hb
      exact hnot (hb ▸ ha)
    · rw [hres]; simp
  | some updated =>
    obtain ⟨pre, e, post, hsrc, he, hpre, hupd⟩ := incrementRecipient_some h
    have hlt : e.occurrences < 4294967295 :=
      hroom e (by rw [hsrc]; exact find_first_recipient he hpre)
    have hmod : (e.occurrences + 1) % 4294967296 = e.occurrences + 1 := by omega
    rw [hmod] at hupd
    have hres : (add_recipient_to_source source recipient_email).recipients =
        pre ++ { e with occurrences := e.occurrences + 1 } :: post := by
      simp [add_recipient_to_source, h, hupd]
    refine ⟨by simp [add_recipient_to_source, h], fun _ => ⟨pre, e, post, hsrc, he, hpre, hres⟩,
      ?_, ?_, ?_⟩
    · intro hnot
      exact absurd h (by rw [incrementRecipient_none.mpr hnot]; simp)
    · intro hnd
      rw [hres]
      rw [hsrc] at hnd
      simpa using hnd
    · rw [hres, hsrc]
      simp
      omega

theorem add_recipient_to_source_counts_once_witness :
    (∀ e, (sender_t.mk "a" [⟨"b", 4294967294⟩, ⟨"c", 7⟩]).recipients.find?
        (fun x => x.recipient_address == "b") = some e → e.occurrences < 4294967295) ∧
    add_recipient_to_source ⟨"a", [⟨"b", 4294967294⟩, ⟨"c", 7⟩]⟩ "b" =
      ⟨"a", [⟨"b", 4294967295⟩, ⟨"c", 7⟩]⟩ ∧
    add_recipient_to_source ⟨"a", [⟨"b", 4294967294⟩, ⟨"c", 7⟩]⟩ "d" =
      ⟨"a", [⟨"b", 4294967294⟩, ⟨"c", 7⟩, ⟨"d", 1⟩]⟩ ∧
    ((add_recipient_to_source ⟨"a", [⟨"b", 4294967294⟩, ⟨"c", 7⟩]⟩ "b").recipients.map
        recipient_t.occurrences).sum =
      ((sender_t.mk "a" [⟨"b", 4294967294⟩, ⟨"c", 7⟩]).recipients.map
        recipient_t.occurrences).sum + 1 :=
  ⟨by intro e he; simp [List.find?_cons] at he; rw [← he]; decide, by decide, by decide,
    (add_recipient_to_source_counts_once ⟨"a", [⟨"b", 4294967294⟩, ⟨"c", 7⟩]⟩ "b"
      (by intro e he; simp [List.find?_cons] at he; rw [← he]; decide)).2.2.2.2⟩

theorem find_source_in_list_of_mem {list : List sender_t} {email : String}
    (h : email ∈ list.map sender_t.sender_address) :
    ∃ e, find_source_in_list list email = some e ∧ e.sender_address = email ∧ e ∈ list := by
  induction list with
  | nil => simp at h
  | cons x xs ih =>
    simp only [find_source_in_list]
    by_cases hx : x.sender_address = email
    · exact ⟨x, by simp [hx], hx, by simp⟩
    · have hx' : (x.sender_address == email) = false := by simpa using hx
      simp only [List.map_cons, List.mem_cons] at h
      rcases h with h | h
      · exact absurd h.symm hx
      · obtain ⟨e, he1, he2, he3⟩ := ih h
        exact ⟨e, by simp [hx', he1], he2, List.mem_cons_of_mem _ he3⟩

theorem add_source_to_list_addresses (list : List sender_t) (email : String) :
    (email ∈ list.map sender_t.sender_address → add_source_to_list list email = list) ∧
    (email ∉ list.map sender_t.sender_address →
      add_source_to_list list email = { sender_address := email, recipients := [] } :: list) := by
  have hany : (list.any fun current => current.sender_address == email) = true ↔
      email ∈ list.map sender_t.sender_address := by
    simp only [List.any_eq_true, beq_iff_eq, List.mem_map]
  constructor
  · intro h
    simp [add_source_to_list, hany.mpr h]
  · intro h
    have : ¬ (list.any fun current => current.sender_address == email) = true :=
      fun hc => h (hany.mp hc)
    simp only [add_source_to_list, if_neg this]

/-- Claim C25: `add_source_to_list` returns the list unchanged when a node has the
address and otherwise the list with a new sender without recipients in front;
pairwise distinct sender addresses stay so, and `find_source_in_list` on the
result returns a node of the result with that address. -/
theorem add_source_to_list_keeps_distinct (list : List sender_t) (source_email : String) :
    (source_email ∈ list.map sender_t.sender_address →
      add_source_to_list list source_email = list) ∧
    (source_email ∉ list.map sender_t.sender_address →
      add_source_to_list list source_email =
        { sender_address := source_email, recipients := [] } :: list) ∧
    ((list.map sender_t.sender_address).Nodup →
      ((add_source_to_list list source_email).map sender_t.sender_address).Nodup) ∧
    (∃ e, find_source_in_list (add_source_to_list list source_email) source_email = some e ∧
      e.sender_address = source_email ∧ e ∈ add_source_to_list list source_email) := by
  obtain ⟨h1, h2⟩ := add_source_to_list_addresses list source_email
  refine ⟨h1, h2, ?_, ?_⟩
  · intro hnd
    by_cases hin : source_email ∈ list.map sender_t.sender_address
    · rw [h1 hin]; exact hnd
    · rw [h2 hin]
      simp only [List.map_cons, List.nodup_cons]
      exact ⟨hin, hnd⟩
  · apply find_source_in_list_of_mem
    by_cases hin : source_email ∈ list.map sender_t.sender_address
    · rw [h1 hin]; exact hin
    · rw [h2 hin]; simp

end Lp25
